import Mathlib

/-!
# Verification of the CVBundler build pipeline (src/bundler/bundler.js)

This file gives a shallow embedding of the build pipeline of the repository:
the three text minifiers (`minifyHTML`, `minifyCSS`, `minifyJS`), the
recursive file scanner (`getFiles`), the five per-kind transformer tasks, the
one-shot build orchestrator (`build`), and the watch-mode change handler
(`startDevServer`'s `change` callback).

Strings are modelled as `List Char` (wrapped in `String` at the interfaces);
each JavaScript global-regex `replace` used by a minifier is embedded as a
structurally recursive scanner equivalent to ECMAScript left-to-right,
non-overlapping, leftmost-match replacement.  Filesystem side effects are
modelled as action traces (`Act`); an external process exit is a `Nat` code.
-/

namespace Bundler

/-- ECMAScript `\s` character class (WhiteSpace ∪ LineTerminator), the set
matched by the `\s` occurrences in the minifier regexes and stripped by
`String.prototype.trim`. -/
def isWs (c : Char) : Bool :=
  c = ' ' || c = '\t' || c = '\n' || c = '\x0b' || c = '\x0c' || c = '\r' ||
  c = ' ' || c = ' ' || (' ' ≤ c && c ≤ ' ') ||
  c = ' ' || c = ' ' || c = ' ' || c = ' ' ||
  c = '　' || c = '﻿'

/-- ECMAScript LineTerminator set (the characters `.` does not match and
before which a multiline `$` asserts). -/
def isLineTerm (c : Char) : Bool :=
  c = '\n' || c = '\r' || c = ' ' || c = ' '

/-- `.replace(/\s+/g, ' ')`: every maximal whitespace run becomes one space.
The boolean argument records whether the previous character was whitespace
(i.e. whether we are inside a run whose replacement space was already
emitted). -/
def collapseAux : Bool → List Char → List Char
  | _, [] => []
  | prev, c :: r =>
    if isWs c then
      if prev then collapseAux true r else ' ' :: collapseAux true r
    else c :: collapseAux false r

def collapseWs (l : List Char) : List Char := collapseAux false l

/-- State of the `.replace(/>\s+</g, '><')` scanner: either scanning
normally, or having just emitted `'>'` with `pend` the (reversed) run of
whitespace seen since it. -/
inductive GaSt where
  | norm : GaSt
  | afterGt (pend : List Char) : GaSt

/-- `.replace(/>\s+</g, '><')`. -/
def ga : GaSt → List Char → List Char
  | .norm, [] => []
  | .norm, c :: r => if c = '>' then '>' :: ga (.afterGt []) r else c :: ga .norm r
  | .afterGt p, [] => p.reverse
  | .afterGt p, c :: r =>
    if isWs c then ga (.afterGt (c :: p)) r
    else if c = '<' then '<' :: ga .norm r
    else if c = '>' then p.reverse ++ '>' :: ga (.afterGt []) r
    else p.reverse ++ c :: ga .norm r

/-- `.replace(/\s+>/g, '>')`; `pend` is the reversed whitespace run
currently buffered (dropped when the run turns out to precede `'>'`). -/
def wg : List Char → List Char → List Char
  | p, [] => p.reverse
  | p, c :: r =>
    if isWs c then wg (c :: p) r
    else if c = '>' then '>' :: wg [] r
    else p.reverse ++ c :: wg [] r

/-- `.replace(/<\s+/g, '<')`; the flag says whether we are skipping the
whitespace that follows a just-emitted `'<'`. -/
def lw : Bool → List Char → List Char
  | _, [] => []
  | skip, c :: r =>
    if skip && isWs c then lw true r
    else if c = '<' then '<' :: lw true r
    else c :: lw false r

/-- `String.prototype.trim()`. -/
def jsTrim (l : List Char) : List Char :=
  ((l.dropWhile isWs).reverse.dropWhile isWs).reverse

/-- `minifyHTML` (bundler.js lines 247-254) on character lists: collapse
whitespace, drop whitespace between `><`, before `>`, after `<`, then trim. -/
def minifyHTMLList (l : List Char) : List Char :=
  jsTrim (lw false (wg [] (ga .norm (collapseAux false l))))

/-- `minifyHTML(html)` from bundler.js. -/
def minifyHTML (s : String) : String := ⟨minifyHTMLList s.data⟩

/-- State of the `.replace(/\/\*[\s\S]*?\*\//g, '')` scanner.  In the two
in-comment states `pend` holds (reversed) everything consumed since the
opening `/*`, opener included, so that an unterminated comment can be
restored verbatim (the regex then has no match). -/
inductive BcSt where
  | norm : BcSt
  | slash : BcSt
  | com (pend : List Char) : BcSt
  | comStar (pend : List Char) : BcSt

/-- `.replace(/\/\*[\s\S]*?\*\//g, '')`: non-greedy block-comment removal. -/
def bc : BcSt → List Char → List Char
  | .norm, [] => []
  | .norm, c :: r => if c = '/' then bc .slash r else c :: bc .norm r
  | .slash, [] => ['/']
  | .slash, c :: r =>
    if c = '*' then bc (.com ['*', '/']) r
    else if c = '/' then '/' :: bc .slash r
    else '/' :: c :: bc .norm r
  | .com p, [] => p.reverse
  | .com p, c :: r =>
    if c = '*' then bc (.comStar (c :: p)) r else bc (.com (c :: p)) r
  | .comStar p, [] => p.reverse
  | .comStar p, c :: r =>
    if c = '/' then bc .norm r
    else if c = '*' then bc (.comStar (c :: p)) r
    else bc (.com (c :: p)) r

/-- State of the `.replace(/\/\/.*$/gm, '')` scanner. -/
inductive LcSt where
  | norm : LcSt
  | slash : LcSt
  | com : LcSt

/-- `.replace(/\/\/.*$/gm, '')`: a `//` and everything up to (excluding) the
next LineTerminator or end of input is removed; the terminator stays. -/
def lc : LcSt → List Char → List Char
  | .norm, [] => []
  | .norm, c :: r => if c = '/' then lc .slash r else c :: lc .norm r
  | .slash, [] => ['/']
  | .slash, c :: r =>
    if c = '/' then lc .com r else '/' :: c :: lc .norm r
  | .com, [] => []
  | .com, c :: r => if isLineTerm c then c :: lc .norm r else lc .com r

/-- State of the `.replace(/;\s*}/g, '}')` scanner: after a `';'` we buffer
the (reversed) whitespace run `pend`; if a `'}'` follows, semicolon and run
are dropped. -/
inductive SbSt where
  | norm : SbSt
  | afterSemi (pend : List Char) : SbSt

/-- `.replace(/;\s*}/g, '}')`. -/
def sb : SbSt → List Char → List Char
  | .norm, [] => []
  | .norm, c :: r => if c = ';' then sb (.afterSemi []) r else c :: sb .norm r
  | .afterSemi p, [] => ';' :: p.reverse
  | .afterSemi p, c :: r =>
    if isWs c then sb (.afterSemi (c :: p)) r
    else if c = '\x7d' then '\x7d' :: sb .norm r
    else if c = ';' then ';' :: p.reverse ++ sb (.afterSemi []) r
    else ';' :: p.reverse ++ c :: sb .norm r

/-- `.replace(/X\s*/g, 'X')` for a literal character `X` (used with `{`,
`;`, `,`, `:` in `minifyCSS`): every occurrence of `X` matches and the
whitespace following it is deleted. -/
def delWsAfter (t : Char) : Bool → List Char → List Char
  | _, [] => []
  | skip, c :: r =>
    if skip && isWs c then delWsAfter t true r
    else if c = t then t :: delWsAfter t true r
    else c :: delWsAfter t false r

/-- `minifyCSS` (bundler.js lines 256-266) on character lists: strip block
comments, collapse whitespace, drop `;` before `}`, drop whitespace after
`{`, `;`, `,`, `:`, then trim. -/
def minifyCSSList (l : List Char) : List Char :=
  jsTrim (delWsAfter ':' false (delWsAfter ',' false (delWsAfter ';' false
    (delWsAfter '\x7b' false (sb .norm (collapseAux false (bc .norm l)))))))

/-- `minifyCSS(css)` from bundler.js. -/
def minifyCSS (s : String) : String := ⟨minifyCSSList s.data⟩

/-- The character class `[{}();,:]` of `minifyJS`'s spacing regex. -/
def isPunct (c : Char) : Bool :=
  c = '\x7b' || c = '\x7d' || c = '(' || c = ')' || c = ';' || c = ',' || c = ':'

/-- State of the `.replace(/\s*([{}();,:])\s*/g, '$1')` scanner: `norm pend`
buffers a (reversed) whitespace run that is dropped if a punctuation
character follows; `afterP` drops the whitespace trailing a match. -/
inductive PjSt where
  | norm (pend : List Char) : PjSt
  | afterP : PjSt

/-- `.replace(/\s*([{}();,:])\s*/g, '$1')`. -/
def pj : PjSt → List Char → List Char
  | .norm p, [] => p.reverse
  | .norm p, c :: r =>
    if isWs c then pj (.norm (c :: p)) r
    else if isPunct c then c :: pj .afterP r
    else p.reverse ++ c :: pj (.norm []) r
  | .afterP, [] => []
  | .afterP, c :: r =>
    if isWs c then pj .afterP r
    else if isPunct c then c :: pj .afterP r
    else c :: pj (.norm []) r

/-- `minifyJS` (bundler.js lines 268-276) on character lists: strip block
comments, strip line comments, collapse whitespace, tighten spacing around
`{ } ( ) ; , :`, then trim. -/
def minifyJSList (l : List Char) : List Char :=
  jsTrim (pj (.norm []) (collapseAux false (lc .norm (bc .norm l))))

/-- `minifyJS(js)` from bundler.js. -/
def minifyJS (s : String) : String := ⟨minifyJSList s.data⟩

/-! ## Adjacency predicates used in the `minifyHTML` idempotence proof -/

/-- No two adjacent characters of the list satisfy `p`. -/
def NoPair (p : Char → Char → Prop) : List Char → Prop
  | a :: b :: r => ¬ p a b ∧ NoPair p (b :: r)
  | _ => True

/-- No three adjacent characters of the list satisfy `p`. -/
def NoTrip (p : Char → Char → Char → Prop) : List Char → Prop
  | a :: b :: c :: r => ¬ p a b c ∧ NoTrip p (b :: c :: r)
  | _ => True

theorem nopair_cons_iff (p : Char → Char → Prop) (a : Char) (l : List Char) :
    NoPair p (a :: l) ↔ ((∀ b ∈ l.head?, ¬ p a b) ∧ NoPair p l) := by
  cases l <;> simp [NoPair]

theorem notrip_cons_iff (p : Char → Char → Char → Prop) (a : Char) (l : List Char) :
    NoTrip p (a :: l) ↔
      ((∀ b c, l.head? = some b → l.tail.head? = some c → ¬ p a b c) ∧ NoTrip p l) := by
  match l with
  | [] => simp [NoTrip]
  | [b] => simp [NoTrip]
  | b :: c :: r => simp [NoTrip]

theorem nopair_tail {p : Char → Char → Prop} {a : Char} {l : List Char}
    (h : NoPair p (a :: l)) : NoPair p l :=
  ((nopair_cons_iff p a l).mp h).2

theorem notrip_tail {p : Char → Char → Char → Prop} {a : Char} {l : List Char}
    (h : NoTrip p (a :: l)) : NoTrip p l :=
  ((notrip_cons_iff p a l).mp h).2

theorem nopair_append_left {p : Char → Char → Prop} {l₂ : List Char} :
    ∀ l₁, NoPair p (l₁ ++ l₂) → NoPair p l₁
  | [], _ => trivial
  | [_], _ => trivial
  | a :: b :: t, h => by
    have h' : NoPair p (a :: b :: (t ++ l₂)) := h
    rw [NoPair] at h'
    exact ⟨h'.1, nopair_append_left (b :: t) h'.2⟩

theorem nopair_append_right {p : Char → Char → Prop} {l₂ : List Char} :
    ∀ l₁, NoPair p (l₁ ++ l₂) → NoPair p l₂
  | [], h => h
  | _ :: t, h => nopair_append_right t (nopair_tail (l := t ++ l₂) h)

theorem notrip_append_left {p : Char → Char → Char → Prop} {l₂ : List Char} :
    ∀ l₁, NoTrip p (l₁ ++ l₂) → NoTrip p l₁
  | [], _ => trivial
  | [_], _ => trivial
  | [_, _], _ => trivial
  | a :: b :: c :: t, h => by
    have h' : NoTrip p (a :: b :: c :: (t ++ l₂)) := h
    rw [NoTrip] at h'
    exact ⟨h'.1, notrip_append_left (b :: c :: t) h'.2⟩

theorem notrip_append_right {p : Char → Char → Char → Prop} {l₂ : List Char} :
    ∀ l₁, NoTrip p (l₁ ++ l₂) → NoTrip p l₂
  | [], h => h
  | _ :: t, h => notrip_append_right t (notrip_tail (l := t ++ l₂) h)

/-- Whitespace characters are isolated (no two adjacent). -/
def NoDW (l : List Char) : Prop := NoPair (fun a b => isWs a = true ∧ isWs b = true) l

/-- No whitespace immediately before a `'>'`. -/
def NoWsGt (l : List Char) : Prop := NoPair (fun a b => isWs a = true ∧ b = '>') l

/-- No whitespace immediately after a `'<'`. -/
def NoLtWs (l : List Char) : Prop := NoPair (fun a b => a = '<' ∧ isWs b = true) l

/-- No `'>'`, whitespace, `'<'` in three adjacent positions. -/
def NoGWL (l : List Char) : Prop :=
  NoTrip (fun a b c => a = '>' ∧ isWs b = true ∧ c = '<') l

/-- Every whitespace character of the list is a plain space. -/
def WsSp (l : List Char) : Prop := ∀ c ∈ l, isWs c = true → c = ' '

/-- The first character, if any, is not whitespace. -/
def HeadNotWs (l : List Char) : Prop := ∀ c ∈ l.head?, isWs c = false

/-- The first character, if any, is not `'<'`. -/
def HeadNotLt (l : List Char) : Prop := ∀ c ∈ l.head?, c ≠ '<'

/-- The first character, if any, is not `'>'`. -/
def HeadNotGt (l : List Char) : Prop := ∀ c ∈ l.head?, c ≠ '>'

/-- The list does not begin with whitespace followed by `'<'` (the condition
for `>\s+<` not to match right after an emitted `'>'`). -/
def NoWsLtStart (l : List Char) : Prop :=
  ∀ a b, l.head? = some a → l.tail.head? = some b → ¬(isWs a = true ∧ b = '<')

/-- Both ends of the list are free of whitespace, phrased as `dropWhile`
fixed points so that `jsTrim` is literally the identity on such lists. -/
def Trimmed (l : List Char) : Prop :=
  l.dropWhile isWs = l ∧ l.reverse.dropWhile isWs = l.reverse

/-! ### Small constructors and destructors for the adjacency predicates -/

theorem nodw_cons_fst {a : Char} {l : List Char} (ha : isWs a = false)
    (h : NoDW l) : NoDW (a :: l) :=
  (nopair_cons_iff ..).mpr ⟨fun _ _ hp => (by rw [hp.1] at ha; cases ha), h⟩

theorem nodw_cons_head {a : Char} {l : List Char} (hh : HeadNotWs l)
    (h : NoDW l) : NoDW (a :: l) :=
  (nopair_cons_iff ..).mpr ⟨fun b hb hp => (by rw [hh b hb] at hp; cases hp.2), h⟩

theorem nodw_headNotWs {a : Char} {l : List Char} (h : NoDW (a :: l))
    (ha : isWs a = true) : HeadNotWs l := by
  intro b hb
  have := ((nopair_cons_iff ..).mp h).1 b hb
  by_contra hb'
  exact this ⟨ha, by simpa using hb'⟩

theorem nodw_tail {a : Char} {l : List Char} (h : NoDW (a :: l)) : NoDW l :=
  ((nopair_cons_iff ..).mp h).2

theorem nowsgt_cons_fst {a : Char} {l : List Char} (ha : isWs a = false)
    (h : NoWsGt l) : NoWsGt (a :: l) :=
  (nopair_cons_iff ..).mpr ⟨fun _ _ hp => (by rw [hp.1] at ha; cases ha), h⟩

theorem nowsgt_cons_head {a : Char} {l : List Char} (hh : HeadNotGt l)
    (h : NoWsGt l) : NoWsGt (a :: l) :=
  (nopair_cons_iff ..).mpr ⟨fun b hb hp => (hh b hb) hp.2, h⟩

theorem nowsgt_headNotGt {a : Char} {l : List Char} (h : NoWsGt (a :: l))
    (ha : isWs a = true) : HeadNotGt l := by
  intro b hb hb'
  exact ((nopair_cons_iff ..).mp h).1 b hb ⟨ha, hb'⟩

theorem nowsgt_tail {a : Char} {l : List Char} (h : NoWsGt (a :: l)) : NoWsGt l :=
  ((nopair_cons_iff ..).mp h).2

theorem noltws_cons_fst {a : Char} {l : List Char} (ha : a ≠ '<')
    (h : NoLtWs l) : NoLtWs (a :: l) :=
  (nopair_cons_iff ..).mpr ⟨fun _ _ hp => ha hp.1, h⟩

theorem noltws_cons_head {a : Char} {l : List Char} (hh : HeadNotWs l)
    (h : NoLtWs l) : NoLtWs (a :: l) :=
  (nopair_cons_iff ..).mpr ⟨fun b hb hp => (by rw [hh b hb] at hp; cases hp.2), h⟩

theorem noltws_headNotWs {a : Char} {l : List Char} (h : NoLtWs (a :: l))
    (ha : a = '<') : HeadNotWs l := by
  intro b hb
  have := ((nopair_cons_iff ..).mp h).1 b hb
  by_contra hb'
  exact this ⟨ha, by simpa using hb'⟩

theorem noltws_tail {a : Char} {l : List Char} (h : NoLtWs (a :: l)) : NoLtWs l :=
  ((nopair_cons_iff ..).mp h).2

theorem nogwl_cons {a : Char} {l : List Char}
    (h1 : ∀ b c, l.head? = some b → l.tail.head? = some c →
      ¬(a = '>' ∧ isWs b = true ∧ c = '<'))
    (h2 : NoGWL l) : NoGWL (a :: l) :=
  (notrip_cons_iff ..).mpr ⟨h1, h2⟩

theorem nogwl_cons_ne {a : Char} {l : List Char} (ha : a ≠ '>')
    (h2 : NoGWL l) : NoGWL (a :: l) :=
  nogwl_cons (fun _ _ _ _ hp => ha hp.1) h2

theorem nogwl_cons_mid {a b : Char} {l : List Char} (hb : isWs b = false)
    (h2 : NoGWL (b :: l)) : NoGWL (a :: b :: l) := by
  refine nogwl_cons ?_ h2
  intro b' c hb' _ hcon
  simp only [List.head?_cons, Option.some.injEq] at hb'
  subst hb'
  rw [hcon.2.1] at hb
  cases hb

theorem nogwl_cons_third {a b c : Char} {l : List Char} (hc : c ≠ '<')
    (h2 : NoGWL (b :: c :: l)) : NoGWL (a :: b :: c :: l) := by
  refine nogwl_cons ?_ h2
  intro b' c' hb' hc' hcon
  simp only [List.head?_cons, List.tail_cons, Option.some.injEq] at hb' hc'
  subst hb'; subst hc'
  exact hc hcon.2.2

theorem nogwl_tail {a : Char} {l : List Char} (h : NoGWL (a :: l)) : NoGWL l :=
  ((notrip_cons_iff ..).mp h).2

theorem nogwl_start {a : Char} {l : List Char} (h : NoGWL (a :: l))
    (ha : a = '>') : NoWsLtStart l := by
  intro b c hb hc hcon
  exact ((notrip_cons_iff ..).mp h).1 b c hb hc ⟨ha, hcon.1, hcon.2⟩

theorem nowsltstart_headNotLt {b : Char} {r : List Char}
    (h : NoWsLtStart (b :: r)) (hb : isWs b = true) : HeadNotLt r := by
  intro c hc hlt
  exact h b c rfl (by simpa using hc) ⟨hb, hlt⟩

theorem wssp_tail {a : Char} {l : List Char} (h : WsSp (a :: l)) : WsSp l :=
  fun x hx => h x (List.mem_cons_of_mem _ hx)

theorem headNotWs_cons {c : Char} {l : List Char} (hc : isWs c = false) :
    HeadNotWs (c :: l) := by
  intro b hb
  simp only [List.head?_cons, Option.mem_def, Option.some.injEq] at hb
  subst hb; exact hc

/-! ### Stage lemmas: whitespace collapse -/

theorem collapse_wssp : ∀ (l : List Char) (b : Bool), WsSp (collapseAux b l) := by
  intro l
  induction l with
  | nil => intro b; intro x hx; simp [collapseAux] at hx
  | cons c r ih =>
    intro b
    by_cases hw : isWs c
    · cases b with
      | true => simpa [collapseAux, hw] using ih true
      | false =>
        simp only [collapseAux, hw, if_true, Bool.false_eq_true, if_false]
        intro x hx hwx
        rcases List.mem_cons.mp hx with h | h
        · exact h
        · exact ih true x h hwx
    · have hw' : isWs c = false := by simpa using hw
      simp only [collapseAux, hw', Bool.false_eq_true, if_false]
      intro x hx hwx
      rcases List.mem_cons.mp hx with h | h
      · subst h; rw [hw'] at hwx; cases hwx
      · exact ih false x h hwx

theorem collapse_headNotWs : ∀ l : List Char, HeadNotWs (collapseAux true l) := by
  intro l
  induction l with
  | nil => intro x hx; simp [collapseAux] at hx
  | cons c r ih =>
    by_cases hw : isWs c
    · simpa [collapseAux, hw] using ih
    · have hw' : isWs c = false := by simpa using hw
      simp only [collapseAux, hw', Bool.false_eq_true, if_false]
      exact headNotWs_cons hw'

theorem collapse_nodw : ∀ (l : List Char) (b : Bool), NoDW (collapseAux b l) := by
  intro l
  induction l with
  | nil => intro b; simp [collapseAux, NoDW, NoPair]
  | cons c r ih =>
    intro b
    by_cases hw : isWs c
    · cases b with
      | true => simpa [collapseAux, hw] using ih true
      | false =>
        simp only [collapseAux, hw, if_true, Bool.false_eq_true, if_false]
        exact nodw_cons_head (collapse_headNotWs r) (ih true)
    · have hw' : isWs c = false := by simpa using hw
      simp only [collapseAux, hw', Bool.false_eq_true, if_false]
      exact nodw_cons_fst hw' (ih false)

theorem collapse_fix : ∀ l : List Char, NoDW l → WsSp l →
    collapseAux false l = l ∧ (HeadNotWs l → collapseAux true l = l) := by
  intro l
  induction l with
  | nil => intro _ _; exact ⟨rfl, fun _ => rfl⟩
  | cons c r ih =>
    intro h hs
    have hr := ih (nodw_tail h) (wssp_tail hs)
    by_cases hw : isWs c
    · have hsp : c = ' ' := hs c (List.mem_cons_self ..) (by simpa using hw)
      have hhr : HeadNotWs r := nodw_headNotWs h (by simpa using hw)
      constructor
      · simp only [collapseAux, hw, if_true, Bool.false_eq_true, if_false]
        rw [hr.2 hhr, hsp]
      · intro hh
        have := hh c (by simp)
        rw [this] at hw; cases hw
    · have hw' : isWs c = false := by simpa using hw
      constructor
      · simp only [collapseAux, hw', Bool.false_eq_true, if_false]
        rw [hr.1]
      · intro _
        simp only [collapseAux, hw', Bool.false_eq_true, if_false]
        rw [hr.1]

/-! ### Stage lemmas: the `>\s+<` scanner `ga` -/

theorem ws_ne_gt {w : Char} (hw : isWs w = true) : w ≠ '>' := by
  intro h; subst h; exact absurd hw (by decide)

theorem ws_ne_lt {w : Char} (hw : isWs w = true) : w ≠ '<' := by
  intro h; subst h; exact absurd hw (by decide)

theorem headNotWs_of_eq {l₁ l₂ : List Char} (he : l₁.head? = l₂.head?)
    (h : HeadNotWs l₂) : HeadNotWs l₁ :=
  fun b hb => h b (he ▸ hb)

theorem wssp_nil : WsSp [] := fun x hx => absurd hx (List.not_mem_nil x)

theorem wssp_cons {c : Char} {l : List Char} (hc : isWs c = true → c = ' ')
    (h : WsSp l) : WsSp (c :: l) := by
  intro x hx hwx
  rcases List.mem_cons.mp hx with h' | h'
  · subst h'; exact hc hwx
  · exact h x h' hwx

theorem wssp_cons_ne {c : Char} {l : List Char} (hc : isWs c = false)
    (h : WsSp l) : WsSp (c :: l) :=
  wssp_cons (fun hx => by rw [hx] at hc; cases hc) h

theorem wssp_append {l₁ l₂ : List Char} (h1 : WsSp l₁) (h2 : WsSp l₂) :
    WsSp (l₁ ++ l₂) := by
  intro x hx hwx
  rcases List.mem_append.mp hx with h | h
  · exact h1 x h hwx
  · exact h2 x h hwx

theorem wssp_reverse {l : List Char} (h : WsSp l) : WsSp l.reverse :=
  fun x hx => h x (List.mem_reverse.mp hx)

theorem ga_norm_gt (r : List Char) :
    ga .norm ('>' :: r) = '>' :: ga (.afterGt []) r := by
  simp [ga]

theorem ga_norm_ne {c : Char} (h : c ≠ '>') (r : List Char) :
    ga .norm (c :: r) = c :: ga .norm r := by
  simp [ga, h]

theorem ga_after_ws {p : List Char} {c : Char} (h : isWs c = true) (r : List Char) :
    ga (.afterGt p) (c :: r) = ga (.afterGt (c :: p)) r := by
  simp [ga, h]

theorem ga_after_lt (p r : List Char) :
    ga (.afterGt p) ('<' :: r) = '<' :: ga .norm r := by
  have h : isWs '<' = false := by decide
  simp [ga, h]

theorem ga_after_gt (p r : List Char) :
    ga (.afterGt p) ('>' :: r) = p.reverse ++ '>' :: ga (.afterGt []) r := by
  have h : isWs '>' = false := by decide
  simp [ga, h]

theorem ga_after_other {c : Char} (hw : isWs c = false) (hlt : c ≠ '<')
    (hgt : c ≠ '>') (p r : List Char) :
    ga (.afterGt p) (c :: r) = p.reverse ++ c :: ga .norm r := by
  simp [ga, hw, hlt, hgt]

theorem ga_norm_head : ∀ l : List Char, (ga .norm l).head? = l.head? := by
  intro l
  cases l with
  | nil => rfl
  | cons c r =>
    by_cases h : c = '>'
    · subst h; rw [ga_norm_gt]; rfl
    · rw [ga_norm_ne h]; rfl

theorem ga_wssp : ∀ (l p : List Char), WsSp l → WsSp p →
    WsSp (ga .norm l) ∧ WsSp (ga (.afterGt p) l) := by
  intro l
  induction l with
  | nil =>
    intro p _ hp
    exact ⟨wssp_nil, by simpa [ga] using wssp_reverse hp⟩
  | cons c r ih =>
    intro p hl hp
    have hr : WsSp r := wssp_tail hl
    have hcs : isWs c = true → c = ' ' := fun hx => hl c (List.mem_cons_self ..) hx
    constructor
    · by_cases h : c = '>'
      · subst h
        rw [ga_norm_gt]
        exact wssp_cons_ne (by decide) (ih [] hr wssp_nil).2
      · rw [ga_norm_ne h]
        exact wssp_cons hcs (ih [] hr wssp_nil).1
    · by_cases hw : isWs c
      · rw [ga_after_ws hw]
        exact (ih (c :: p) hr (wssp_cons hcs hp)).2
      · have hw' : isWs c = false := by simpa using hw
        by_cases hlt : c = '<'
        · subst hlt
          rw [ga_after_lt]
          exact wssp_cons_ne (by decide) (ih [] hr wssp_nil).1
        · by_cases hgt : c = '>'
          · subst hgt
            rw [ga_after_gt]
            exact wssp_append (wssp_reverse hp)
              (wssp_cons_ne (by decide) (ih [] hr wssp_nil).2)
          · rw [ga_after_other hw' hlt hgt]
            exact wssp_append (wssp_reverse hp)
              (wssp_cons hcs (ih [] hr wssp_nil).1)

theorem ga_inv : ∀ l : List Char, NoDW l →
    (NoGWL (ga .norm l) ∧ NoDW (ga .norm l)) ∧
    (NoGWL ('>' :: ga (.afterGt []) l) ∧ NoDW (ga (.afterGt []) l)) ∧
    (∀ w, isWs w = true → HeadNotWs l →
      NoGWL ('>' :: ga (.afterGt [w]) l) ∧ NoDW (ga (.afterGt [w]) l)) := by
  intro l
  induction l with
  | nil =>
    intro _
    refine ⟨⟨trivial, trivial⟩, ⟨?_, ?_⟩, ?_⟩
    · simp [ga, NoGWL, NoTrip]
    · simp [ga, NoDW, NoPair]
    · intro w _ _
      constructor
      · simp [ga, NoGWL, NoTrip]
      · simp [ga, NoDW, NoPair]
  | cons c r ih =>
    intro h
    obtain ⟨⟨hN1, hN2⟩, ⟨hA1, hA2⟩, hW⟩ := ih (nodw_tail h)
    by_cases hw : isWs c
    · -- c is whitespace
      have hgt : c ≠ '>' := ws_ne_gt hw
      have hhr : HeadNotWs r := nodw_headNotWs h hw
      refine ⟨?_, ?_, ?_⟩
      · rw [ga_norm_ne hgt]
        exact ⟨nogwl_cons_ne hgt hN1,
          nodw_cons_head (headNotWs_of_eq (ga_norm_head r) hhr) hN2⟩
      · rw [ga_after_ws hw]
        exact hW c hw hhr
      · intro w hws hhl
        exact absurd (hhl c (by simp)) (by simp [hw])
    · have hw' : isWs c = false := by simpa using hw
      by_cases hgt : c = '>'
      · subst hgt
        refine ⟨?_, ?_, ?_⟩
        · rw [ga_norm_gt]
          exact ⟨hA1, nodw_cons_fst (by decide) hA2⟩
        · rw [ga_after_gt, List.reverse_nil, List.nil_append]
          exact ⟨nogwl_cons_mid (by decide) hA1, nodw_cons_fst (by decide) hA2⟩
        · intro w hws _
          rw [ga_after_gt]
          simp only [List.reverse_cons, List.reverse_nil, List.nil_append,
            List.cons_append]
          refine ⟨?_, ?_⟩
          · exact nogwl_cons_third (by decide)
              (nogwl_cons_ne (ws_ne_gt hws) hA1)
          · exact nodw_cons_head (headNotWs_cons (by decide))
              (nodw_cons_fst (by decide) hA2)
      · by_cases hlt : c = '<'
        · subst hlt
          refine ⟨?_, ?_, ?_⟩
          · rw [ga_norm_ne hgt]
            exact ⟨nogwl_cons_ne hgt hN1, nodw_cons_fst (by decide) hN2⟩
          · rw [ga_after_lt]
            exact ⟨nogwl_cons_mid (by decide) (nogwl_cons_ne hgt hN1),
              nodw_cons_fst (by decide) hN2⟩
          · intro w hws _
            rw [ga_after_lt]
            exact ⟨nogwl_cons_mid (by decide) (nogwl_cons_ne hgt hN1),
              nodw_cons_fst (by decide) hN2⟩
        · refine ⟨?_, ?_, ?_⟩
          · rw [ga_norm_ne hgt]
            exact ⟨nogwl_cons_ne hgt hN1, nodw_cons_fst hw' hN2⟩
          · rw [ga_after_other hw' hlt hgt, List.reverse_nil, List.nil_append]
            exact ⟨nogwl_cons_mid hw' (nogwl_cons_ne hgt hN1),
              nodw_cons_fst hw' hN2⟩
          · intro w hws _
            rw [ga_after_other hw' hlt hgt]
            simp only [List.reverse_cons, List.reverse_nil, List.nil_append,
              List.cons_append]
            refine ⟨?_, ?_⟩
            · exact nogwl_cons_third hlt
                (nogwl_cons_ne (ws_ne_gt hws) (nogwl_cons_ne hgt hN1))
            · exact nodw_cons_head (headNotWs_cons hw') (nodw_cons_fst hw' hN2)

theorem ga_fix : ∀ l : List Char, NoDW l → NoGWL l →
    ga .norm l = l ∧
    (NoWsLtStart l → ga (.afterGt []) l = l) ∧
    (∀ w, isWs w = true → HeadNotWs l → HeadNotLt l →
      ga (.afterGt [w]) l = w :: l) := by
  intro l
  induction l with
  | nil =>
    intro _ _
    exact ⟨rfl, fun _ => by simp [ga], fun w _ _ _ => by simp [ga]⟩
  | cons c r ih =>
    intro h hg
    obtain ⟨ih1, ih2, ih3⟩ := ih (nodw_tail h) (nogwl_tail hg)
    refine ⟨?_, ?_, ?_⟩
    · by_cases hgt : c = '>'
      · subst hgt
        rw [ga_norm_gt, ih2 (nogwl_start hg rfl)]
      · rw [ga_norm_ne hgt, ih1]
    · intro hst
      by_cases hw : isWs c
      · rw [ga_after_ws hw]
        exact ih3 c hw (nodw_headNotWs h hw) (nowsltstart_headNotLt hst hw)
      · have hw' : isWs c = false := by simpa using hw
        by_cases hlt : c = '<'
        · subst hlt
          rw [ga_after_lt, ih1]
        · by_cases hgt : c = '>'
          · subst hgt
            rw [ga_after_gt, List.reverse_nil, List.nil_append,
              ih2 (nogwl_start hg rfl)]
          · rw [ga_after_other hw' hlt hgt, List.reverse_nil, List.nil_append, ih1]
    · intro w hws hhw hhl
      have hcw : isWs c = false := hhw c (by simp)
      have hcl : c ≠ '<' := hhl c (by simp)
      by_cases hgt : c = '>'
      · subst hgt
        rw [ga_after_gt, ih2 (nogwl_start hg rfl)]
        simp
      · rw [ga_after_other hcw hcl hgt, ih1]
        simp

/-! ### Stage lemmas: the `\s+>` scanner `wg` -/

theorem headNotGt_cons {c : Char} {l : List Char} (hc : c ≠ '>') :
    HeadNotGt (c :: l) := by
  intro b hb
  simp only [List.head?_cons, Option.mem_def, Option.some.injEq] at hb
  subst hb; exact hc

theorem headNotLt_cons {c : Char} {l : List Char} (hc : c ≠ '<') :
    HeadNotLt (c :: l) := by
  intro b hb
  simp only [List.head?_cons, Option.mem_def, Option.some.injEq] at hb
  subst hb; exact hc

theorem headNotGt_of_eq {l₁ l₂ : List Char} (he : l₁.head? = l₂.head?)
    (h : HeadNotGt l₂) : HeadNotGt l₁ :=
  fun b hb => h b (he ▸ hb)

theorem wg_ws {c : Char} (h : isWs c = true) (p r : List Char) :
    wg p (c :: r) = wg (c :: p) r := by
  simp [wg, h]

theorem wg_gt (p r : List Char) : wg p ('>' :: r) = '>' :: wg [] r := by
  have h : isWs '>' = false := by decide
  simp [wg, h]

theorem wg_other {c : Char} (hw : isWs c = false) (hgt : c ≠ '>') (p r : List Char) :
    wg p (c :: r) = p.reverse ++ c :: wg [] r := by
  simp [wg, hw, hgt]

theorem wg_wssp : ∀ (l p : List Char), WsSp l → WsSp p → WsSp (wg p l) := by
  intro l
  induction l with
  | nil => intro p _ hp; exact by simpa [wg] using wssp_reverse hp
  | cons c r ih =>
    intro p hl hp
    have hr : WsSp r := wssp_tail hl
    have hcs : isWs c = true → c = ' ' := fun hx => hl c (List.mem_cons_self ..) hx
    by_cases hw : isWs c
    · rw [wg_ws hw]
      exact ih (c :: p) hr (wssp_cons hcs hp)
    · have hw' : isWs c = false := by simpa using hw
      by_cases hgt : c = '>'
      · subst hgt
        rw [wg_gt]
        exact wssp_cons_ne (by decide) (ih [] hr wssp_nil)
      · rw [wg_other hw' hgt]
        exact wssp_append (wssp_reverse hp) (wssp_cons hcs (ih [] hr wssp_nil))

theorem wg_inv : ∀ l : List Char, NoDW l → NoGWL l →
    (NoWsGt (wg [] l) ∧ NoDW (wg [] l) ∧ NoGWL (wg [] l)) ∧
    (NoWsLtStart l → NoGWL ('>' :: wg [] l)) ∧
    (∀ w, isWs w = true → HeadNotWs l →
      (NoWsGt (wg [w] l) ∧ NoDW (wg [w] l) ∧ NoGWL (wg [w] l)) ∧
      (HeadNotLt l → NoGWL ('>' :: wg [w] l))) := by
  intro l
  induction l with
  | nil =>
    intro _ _
    refine ⟨⟨trivial, trivial, trivial⟩, fun _ => ?_, fun w _ _ => ⟨⟨?_, ?_, ?_⟩, fun _ => ?_⟩⟩
    · simp [wg, NoGWL, NoTrip]
    · simp [wg, NoWsGt, NoPair]
    · simp [wg, NoDW, NoPair]
    · simp [wg, NoGWL, NoTrip]
    · simp [wg, NoGWL, NoTrip]
  | cons c r ih =>
    intro h hg
    obtain ⟨⟨iA1, iA2, iA3⟩, iB, iC⟩ := ih (nodw_tail h) (nogwl_tail hg)
    by_cases hw : isWs c
    · -- whitespace head
      have hhr : HeadNotWs r := nodw_headNotWs h hw
      refine ⟨?_, ?_, ?_⟩
      · rw [wg_ws hw]
        exact (iC c hw hhr).1
      · intro hst
        rw [wg_ws hw]
        exact (iC c hw hhr).2 (nowsltstart_headNotLt hst hw)
      · intro w hws hhw
        exact absurd (hhw c (by simp)) (by simp [hw])
    · have hw' : isWs c = false := by simpa using hw
      by_cases hgt : c = '>'
      · subst hgt
        have hB : NoGWL ('>' :: wg [] r) := iB (nogwl_start hg rfl)
        refine ⟨?_, ?_, ?_⟩
        · rw [wg_gt]
          exact ⟨nowsgt_cons_fst (by decide) iA1, nodw_cons_fst (by decide) iA2, hB⟩
        · intro _
          rw [wg_gt]
          exact nogwl_cons_mid (by decide) hB
        · intro w hws _
          rw [wg_gt]
          refine ⟨⟨nowsgt_cons_fst (by decide) iA1, nodw_cons_fst (by decide) iA2, hB⟩,
            fun _ => nogwl_cons_mid (by decide) hB⟩
      · refine ⟨?_, ?_, ?_⟩
        · rw [wg_other hw' hgt, List.reverse_nil, List.nil_append]
          exact ⟨nowsgt_cons_fst hw' iA1, nodw_cons_fst hw' iA2,
            nogwl_cons_ne hgt iA3⟩
        · intro _
          rw [wg_other hw' hgt, List.reverse_nil, List.nil_append]
          exact nogwl_cons_mid hw' (nogwl_cons_ne hgt iA3)
        · intro w hws hhw
          rw [wg_other hw' hgt]
          simp only [List.reverse_cons, List.reverse_nil, List.nil_append,
            List.cons_append]
          have hin : NoGWL (c :: wg [] r) := nogwl_cons_ne hgt iA3
          refine ⟨⟨?_, ?_, ?_⟩, ?_⟩
          · exact nowsgt_cons_head (headNotGt_cons hgt) (nowsgt_cons_fst hw' iA1)
          · exact nodw_cons_head (headNotWs_cons hw') (nodw_cons_fst hw' iA2)
          · exact nogwl_cons_ne (ws_ne_gt hws) hin
          · intro hhl
            exact nogwl_cons_third (hhl c (by simp))
              (nogwl_cons_ne (ws_ne_gt hws) hin)

theorem wg_fix : ∀ l : List Char, NoDW l → NoWsGt l →
    wg [] l = l ∧
    (∀ w, isWs w = true → HeadNotWs l → HeadNotGt l → wg [w] l = w :: l) := by
  intro l
  induction l with
  | nil =>
    intro _ _
    exact ⟨by simp [wg], fun w _ _ _ => by simp [wg]⟩
  | cons c r ih =>
    intro h hwg
    obtain ⟨ih1, ih2⟩ := ih (nodw_tail h) (nowsgt_tail hwg)
    constructor
    · by_cases hw : isWs c
      · rw [wg_ws hw]
        exact ih2 c hw (nodw_headNotWs h hw) (nowsgt_headNotGt hwg hw)
      · have hw' : isWs c = false := by simpa using hw
        by_cases hgt : c = '>'
        · subst hgt; rw [wg_gt, ih1]
        · rw [wg_other hw' hgt, List.reverse_nil, List.nil_append, ih1]
    · intro w hws hhw hhg
      have hcw : isWs c = false := hhw c (by simp)
      have hcg : c ≠ '>' := hhg c (by simp)
      rw [wg_other hcw hcg, ih1]
      simp

/-! ### Stage lemmas: the `<\s+` scanner `lw` -/

theorem lw_true_ws {c : Char} (h : isWs c = true) (r : List Char) :
    lw true (c :: r) = lw true r := by
  simp [lw, h]

theorem lw_lt (b : Bool) (r : List Char) : lw b ('<' :: r) = '<' :: lw true r := by
  have h : isWs '<' = false := by decide
  cases b <;> simp [lw, h]

theorem lw_false_other {c : Char} (hlt : c ≠ '<') (r : List Char) :
    lw false (c :: r) = c :: lw false r := by
  simp [lw, hlt]

theorem lw_true_other {c : Char} (hw : isWs c = false) (hlt : c ≠ '<')
    (r : List Char) : lw true (c :: r) = c :: lw false r := by
  simp [lw, hw, hlt]

theorem lw_head : ∀ l : List Char, (lw false l).head? = l.head? := by
  intro l
  cases l with
  | nil => rfl
  | cons c r =>
    by_cases h : c = '<'
    · subst h; rw [lw_lt]; rfl
    · rw [lw_false_other h]; rfl

theorem lw_wssp : ∀ (l : List Char) (b : Bool), WsSp l → WsSp (lw b l) := by
  intro l
  induction l with
  | nil => intro b _; intro x hx; simp [lw] at hx
  | cons c r ih =>
    intro b hl
    have hr : WsSp r := wssp_tail hl
    have hcs : isWs c = true → c = ' ' := fun hx => hl c (List.mem_cons_self ..) hx
    by_cases hlt : c = '<'
    · subst hlt
      rw [lw_lt]
      exact wssp_cons_ne (by decide) (ih true hr)
    · cases b with
      | false =>
        rw [lw_false_other hlt]
        exact wssp_cons hcs (ih false hr)
      | true =>
        by_cases hw : isWs c
        · rw [lw_true_ws hw]
          exact ih true hr
        · rw [lw_true_other (by simpa using hw) hlt]
          exact wssp_cons hcs (ih false hr)

theorem lw_inv : ∀ l : List Char, NoDW l → NoGWL l → NoWsGt l →
    (NoLtWs (lw false l) ∧ NoDW (lw false l) ∧ NoWsGt (lw false l) ∧
      NoGWL (lw false l) ∧ (∀ a, NoGWL (a :: l) → NoGWL (a :: lw false l))) ∧
    (NoLtWs (lw true l) ∧ NoDW (lw true l) ∧ NoWsGt (lw true l) ∧
      NoGWL (lw true l) ∧ HeadNotWs (lw true l)) := by
  intro l
  induction l with
  | nil =>
    intro _ _ _
    refine ⟨⟨trivial, trivial, trivial, trivial, fun a _ => trivial⟩,
      ⟨trivial, trivial, trivial, trivial, ?_⟩⟩
    intro b hb
    simp [lw] at hb
  | cons c r ih =>
    intro h hg hwg
    obtain ⟨⟨f1, f2, f3, f4, f5⟩, ⟨t1, t2, t3, t4, t5⟩⟩ :=
      ih (nodw_tail h) (nogwl_tail hg) (nowsgt_tail hwg)
    by_cases hlt : c = '<'
    · subst hlt
      have hout : NoLtWs ('<' :: lw true r) ∧ NoDW ('<' :: lw true r) ∧
          NoWsGt ('<' :: lw true r) ∧ NoGWL ('<' :: lw true r) :=
        ⟨noltws_cons_head t5 t1, nodw_cons_fst (by decide) t2,
          nowsgt_cons_fst (by decide) t3, nogwl_cons_ne (by decide) t4⟩
      constructor
      · rw [lw_lt]
        refine ⟨hout.1, hout.2.1, hout.2.2.1, hout.2.2.2, ?_⟩
        intro a _
        exact nogwl_cons_mid (by decide) hout.2.2.2
      · rw [lw_lt]
        exact ⟨hout.1, hout.2.1, hout.2.2.1, hout.2.2.2, headNotWs_cons (by decide)⟩
    · by_cases hw : isWs c
      · -- whitespace head (hence c ≠ '<'); `lw false` keeps it, `lw true` drops it
        have hhr : HeadNotWs r := nodw_headNotWs h hw
        have hF4 : NoGWL (c :: lw false r) := f5 c hg
        have hFout : NoLtWs (c :: lw false r) ∧ NoDW (c :: lw false r) ∧
            NoWsGt (c :: lw false r) :=
          ⟨noltws_cons_fst hlt f1,
            nodw_cons_head (headNotWs_of_eq (lw_head r) hhr) f2,
            nowsgt_cons_head (headNotGt_of_eq (lw_head r) (nowsgt_headNotGt hwg hw)) f3⟩
        constructor
        · rw [lw_false_other hlt]
          refine ⟨hFout.1, hFout.2.1, hFout.2.2, hF4, ?_⟩
          intro a ha
          refine nogwl_cons ?_ hF4
          intro b d hb hd hcon
          simp only [List.head?_cons, Option.some.injEq] at hb
          subst hb
          simp only [List.tail_cons] at hd
          rw [lw_head r] at hd
          exact ((notrip_cons_iff ..).mp ha).1 c d rfl (by simpa using hd) hcon
        · rw [lw_true_ws hw]
          exact ⟨t1, t2, t3, t4, t5⟩
      · have hw' : isWs c = false := by simpa using hw
        have hF4 : NoGWL (c :: lw false r) := f5 c hg
        have hFout : NoLtWs (c :: lw false r) ∧ NoDW (c :: lw false r) ∧
            NoWsGt (c :: lw false r) :=
          ⟨noltws_cons_fst hlt f1, nodw_cons_fst hw' f2, nowsgt_cons_fst hw' f3⟩
        constructor
        · rw [lw_false_other hlt]
          refine ⟨hFout.1, hFout.2.1, hFout.2.2, hF4, ?_⟩
          intro a _
          exact nogwl_cons_mid hw' hF4
        · rw [lw_true_other hw' hlt]
          exact ⟨hFout.1, hFout.2.1, hFout.2.2, hF4, headNotWs_cons hw'⟩

theorem lw_fix : ∀ l : List Char, NoLtWs l →
    lw false l = l ∧ (HeadNotWs l → lw true l = l) := by
  intro l
  induction l with
  | nil => intro _; exact ⟨rfl, fun _ => rfl⟩
  | cons c r ih =>
    intro h
    obtain ⟨ih1, ih2⟩ := ih (noltws_tail h)
    by_cases hlt : c = '<'
    · subst hlt
      have : lw true r = r := ih2 (noltws_headNotWs h rfl)
      exact ⟨by rw [lw_lt, this], fun _ => by rw [lw_lt, this]⟩
    · constructor
      · rw [lw_false_other hlt, ih1]
      · intro hh
        have hcw : isWs c = false := hh c (by simp)
        rw [lw_true_other hcw hlt, ih1]

/-! ### Stage lemmas: `jsTrim` -/

theorem dropWhile_decomp (p : Char → Bool) :
    ∀ l : List Char, ∃ u, l = u ++ l.dropWhile p := by
  intro l
  induction l with
  | nil => exact ⟨[], rfl⟩
  | cons c r ih =>
    by_cases h : p c
    · obtain ⟨u, hu⟩ := ih
      refine ⟨c :: u, ?_⟩
      rw [List.dropWhile_cons, if_pos h, List.cons_append, ← hu]
    · exact ⟨[], by rw [List.dropWhile_cons, if_neg h, List.nil_append]⟩

theorem head_dropWhile_not (p : Char → Bool) :
    ∀ l : List Char, ∀ c ∈ (l.dropWhile p).head?, p c = false := by
  intro l
  induction l with
  | nil => intro c hc; simp at hc
  | cons a r ih =>
    intro c hc
    rw [List.dropWhile_cons] at hc
    by_cases h : p a
    · rw [if_pos h] at hc
      exact ih c hc
    · rw [if_neg h] at hc
      simp only [List.head?_cons, Option.mem_def, Option.some.injEq] at hc
      subst hc
      simpa using h

theorem dropWhile_eq_self_of_head (p : Char → Bool) (l : List Char)
    (h : ∀ c ∈ l.head?, p c = false) : l.dropWhile p = l := by
  cases l with
  | nil => rfl
  | cons a r =>
    rw [List.dropWhile_cons, if_neg]
    simp [h a (by simp)]

theorem jsTrim_decomp (l : List Char) : ∃ u v, l = u ++ (jsTrim l ++ v) := by
  obtain ⟨u, hu⟩ := dropWhile_decomp isWs l
  obtain ⟨v', hv⟩ := dropWhile_decomp isWs (l.dropWhile isWs).reverse
  refine ⟨u, v'.reverse, ?_⟩
  have h1 : l.dropWhile isWs = jsTrim l ++ v'.reverse := by
    have := congrArg List.reverse hv
    rw [List.reverse_reverse, List.reverse_append] at this
    exact this
  rw [← h1, ← hu]

theorem nopair_jsTrim {p : Char → Char → Prop} {l : List Char}
    (h : NoPair p l) : NoPair p (jsTrim l) := by
  obtain ⟨u, v, huv⟩ := jsTrim_decomp l
  rw [huv] at h
  exact nopair_append_left _ (nopair_append_right u h)

theorem notrip_jsTrim {p : Char → Char → Char → Prop} {l : List Char}
    (h : NoTrip p l) : NoTrip p (jsTrim l) := by
  obtain ⟨u, v, huv⟩ := jsTrim_decomp l
  rw [huv] at h
  exact notrip_append_left _ (notrip_append_right u h)

theorem wssp_jsTrim {l : List Char} (h : WsSp l) : WsSp (jsTrim l) := by
  obtain ⟨u, v, huv⟩ := jsTrim_decomp l
  intro x hx hwx
  exact h x (by rw [huv]; simp [hx]) hwx

theorem jsTrim_trimmed (l : List Char) : Trimmed (jsTrim l) := by
  have hhead : ∀ c ∈ (jsTrim l).head?, isWs c = false := by
    intro c hc
    unfold jsTrim at hc
    rw [List.head?_reverse] at hc
    rcases heq : ((l.dropWhile isWs).reverse.dropWhile isWs) with _ | ⟨a, t⟩
    · rw [heq] at hc; simp at hc
    · have hne : (l.dropWhile isWs).reverse.dropWhile isWs ≠ [] := by
        rw [heq]; simp
      obtain ⟨v', hv⟩ := dropWhile_decomp isWs (l.dropWhile isWs).reverse
      have hlast : ((l.dropWhile isWs).reverse.dropWhile isWs).getLast? =
          (l.dropWhile isWs).reverse.getLast? := by
        conv_rhs => rw [hv]
        exact (List.getLast?_append_of_ne_nil v' hne).symm
      rw [hlast, List.getLast?_reverse] at hc
      exact head_dropWhile_not isWs l c hc
  constructor
  · exact dropWhile_eq_self_of_head isWs _ hhead
  · have : (jsTrim l).reverse = (l.dropWhile isWs).reverse.dropWhile isWs := by
      unfold jsTrim
      rw [List.reverse_reverse]
    rw [this]
    exact dropWhile_eq_self_of_head isWs _
      (head_dropWhile_not isWs (l.dropWhile isWs).reverse)

theorem jsTrim_fix {l : List Char} (h : Trimmed l) : jsTrim l = l := by
  unfold jsTrim
  rw [h.1, h.2, List.reverse_reverse]

/-! ### `minifyHTML` is idempotent -/

/-- The five invariants that hold of every `minifyHTML` output. -/
theorem minifyHTMLList_inv (l : List Char) :
    NoDW (minifyHTMLList l) ∧ WsSp (minifyHTMLList l) ∧ NoGWL (minifyHTMLList l) ∧
      NoWsGt (minifyHTMLList l) ∧ NoLtWs (minifyHTMLList l) ∧
      Trimmed (minifyHTMLList l) := by
  set s1 := collapseAux false l with hs1
  have h1dw : NoDW s1 := collapse_nodw l false
  have h1sp : WsSp s1 := collapse_wssp l false
  set s2 := ga .norm s1 with hs2
  have h2dw : NoDW s2 := ((ga_inv s1 h1dw).1).2
  have h2sp : WsSp s2 := (ga_wssp s1 [] h1sp wssp_nil).1
  have h2g : NoGWL s2 := ((ga_inv s1 h1dw).1).1
  set s3 := wg [] s2 with hs3
  obtain ⟨h3wg, h3dw, h3g⟩ := (wg_inv s2 h2dw h2g).1
  have h3sp : WsSp s3 := wg_wssp s2 [] h2sp wssp_nil
  set s4 := lw false s3 with hs4
  obtain ⟨h4lw, h4dw, h4wg, h4g, _⟩ := (lw_inv s3 h3dw h3g h3wg).1
  have h4sp : WsSp s4 := lw_wssp s3 false h3sp
  have hout : minifyHTMLList l = jsTrim s4 := rfl
  rw [hout]
  exact ⟨nopair_jsTrim h4dw, wssp_jsTrim h4sp, notrip_jsTrim h4g,
    nopair_jsTrim h4wg, nopair_jsTrim h4lw, jsTrim_trimmed s4⟩

/-- Any list satisfying the five invariants is a fixed point of the whole
`minifyHTML` pipeline. -/
theorem minifyHTMLList_fix {y : List Char} (hdw : NoDW y) (hsp : WsSp y)
    (hg : NoGWL y) (hwg : NoWsGt y) (hlw : NoLtWs y) (htr : Trimmed y) :
    minifyHTMLList y = y := by
  unfold minifyHTMLList
  rw [(collapse_fix y hdw hsp).1, (ga_fix y hdw hg).1, (wg_fix y hdw hwg).1,
    (lw_fix y hlw).1, jsTrim_fix htr]

theorem minifyHTMLList_idem (l : List Char) :
    minifyHTMLList (minifyHTMLList l) = minifyHTMLList l := by
  obtain ⟨h1, h2, h3, h4, h5, h6⟩ := minifyHTMLList_inv l
  exact minifyHTMLList_fix h1 h2 h3 h4 h5 h6

/-- `minifyHTML` is idempotent on every string. -/
theorem minifyHTML_idem (s : String) : minifyHTML (minifyHTML s) = minifyHTML s := by
  unfold minifyHTML
  exact congrArg String.mk (minifyHTMLList_idem s.data)

/-! ### The minifiers never lengthen their input -/

theorem collapse_len : ∀ (l : List Char) (b : Bool),
    (collapseAux b l).length ≤ l.length := by
  intro l
  induction l with
  | nil => intro b; simp [collapseAux]
  | cons c r ih =>
    intro b
    by_cases hw : isWs c
    · cases b with
      | true =>
        simp only [collapseAux, hw, if_true]
        have := ih true
        simp only [List.length_cons]
        omega
      | false =>
        simp only [collapseAux, hw, if_true, Bool.false_eq_true, if_false,
          List.length_cons]
        have := ih true
        omega
    · have hw' : isWs c = false := by simpa using hw
      simp only [collapseAux, hw', Bool.false_eq_true, if_false, List.length_cons]
      have := ih false
      omega

theorem ga_len : ∀ (l p : List Char),
    (ga .norm l).length ≤ l.length ∧
    (ga (.afterGt p) l).length ≤ p.length + l.length := by
  intro l
  induction l with
  | nil =>
    intro p
    simp [ga]
  | cons c r ih =>
    intro p
    constructor
    · by_cases hgt : c = '>'
      · subst hgt
        rw [ga_norm_gt]
        have := (ih []).2
        simp only [List.length_cons, List.length_nil] at *
        omega
      · rw [ga_norm_ne hgt]
        have := (ih p).1
        simp only [List.length_cons]
        omega
    · by_cases hw : isWs c
      · rw [ga_after_ws hw]
        have := (ih (c :: p)).2
        simp only [List.length_cons, List.length_nil] at *
        omega
      · have hw' : isWs c = false := by simpa using hw
        by_cases hlt : c = '<'
        · subst hlt
          rw [ga_after_lt]
          have := (ih p).1
          simp only [List.length_cons]
          omega
        · by_cases hgt : c = '>'
          · subst hgt
            rw [ga_after_gt]
            have := (ih []).2
            simp only [List.length_append, List.length_reverse, List.length_cons, List.length_nil] at *
            omega
          · rw [ga_after_other hw' hlt hgt]
            have := (ih p).1
            simp only [List.length_append, List.length_reverse, List.length_cons]
            omega

theorem wg_len : ∀ (l p : List Char), (wg p l).length ≤ p.length + l.length := by
  intro l
  induction l with
  | nil => intro p; simp [wg]
  | cons c r ih =>
    intro p
    by_cases hw : isWs c
    · rw [wg_ws hw]
      have := ih (c :: p)
      simp only [List.length_cons, List.length_nil] at *
      omega
    · have hw' : isWs c = false := by simpa using hw
      by_cases hgt : c = '>'
      · subst hgt
        rw [wg_gt]
        have := ih []
        simp only [List.length_cons, List.length_nil] at *
        omega
      · rw [wg_other hw' hgt]
        have := ih []
        simp only [List.length_append, List.length_reverse, List.length_cons, List.length_nil] at *
        omega

theorem lw_len : ∀ (l : List Char) (b : Bool), (lw b l).length ≤ l.length := by
  intro l
  induction l with
  | nil => intro b; simp [lw]
  | cons c r ih =>
    intro b
    by_cases hlt : c = '<'
    · subst hlt
      rw [lw_lt]
      have := ih true
      simp only [List.length_cons]
      omega
    · cases b with
      | false =>
        rw [lw_false_other hlt]
        have := ih false
        simp only [List.length_cons]
        omega
      | true =>
        by_cases hw : isWs c
        · rw [lw_true_ws hw]
          have := ih true
          simp only [List.length_cons]
          omega
        · rw [lw_true_other (by simpa using hw) hlt]
          have := ih false
          simp only [List.length_cons]
          omega

theorem jsTrim_len (l : List Char) : (jsTrim l).length ≤ l.length := by
  unfold jsTrim
  calc ((l.dropWhile isWs).reverse.dropWhile isWs).reverse.length
      = ((l.dropWhile isWs).reverse.dropWhile isWs).length := List.length_reverse ..
    _ ≤ (l.dropWhile isWs).reverse.length := (List.dropWhile_sublist _).length_le
    _ = (l.dropWhile isWs).length := List.length_reverse ..
    _ ≤ l.length := (List.dropWhile_sublist _).length_le

theorem bc_len : ∀ (l p : List Char),
    (bc .norm l).length ≤ l.length ∧
    (bc .slash l).length ≤ 1 + l.length ∧
    (bc (.com p) l).length ≤ p.length + l.length ∧
    (bc (.comStar p) l).length ≤ p.length + l.length := by
  intro l
  induction l with
  | nil => intro p; simp [bc]
  | cons c r ih =>
    intro p
    refine ⟨?_, ?_, ?_, ?_⟩
    · by_cases h : c = '/'
      · subst h
        have := (ih p).2.1
        simp [bc]
        omega
      · have := (ih p).1
        simp [bc, h]
        omega
    · by_cases hs : c = '*'
      · subst hs
        have := (ih ['*', '/']).2.2.1
        simp [bc]
        simp at this
        omega
      · by_cases h : c = '/'
        · subst h
          have := (ih p).2.1
          simp [bc, hs]
          omega
        · have := (ih p).1
          simp [bc, hs, h]
          omega
    · by_cases hs : c = '*'
      · subst hs
        have := (ih ('*' :: p)).2.2.2
        simp [bc]
        simp at this
        omega
      · have := (ih (c :: p)).2.2.1
        simp [bc, hs]
        simp at this
        omega
    · by_cases h : c = '/'
      · subst h
        have := (ih p).1
        simp [bc]
        omega
      · by_cases hs : c = '*'
        · subst hs
          have := (ih ('*' :: p)).2.2.2
          simp [bc, h]
          simp at this
          omega
        · have := (ih (c :: p)).2.2.1
          simp [bc, h, hs]
          simp at this
          omega

theorem lc_len : ∀ l : List Char,
    (lc .norm l).length ≤ l.length ∧
    (lc .slash l).length ≤ 1 + l.length ∧
    (lc .com l).length ≤ l.length := by
  intro l
  induction l with
  | nil => simp [lc]
  | cons c r ih =>
    refine ⟨?_, ?_, ?_⟩
    · by_cases h : c = '/'
      · subst h
        have := ih.2.1
        simp [lc]
        omega
      · have := ih.1
        simp [lc, h]
        omega
    · by_cases h : c = '/'
      · subst h
        have := ih.2.2
        simp [lc]
        omega
      · have := ih.1
        simp [lc, h]
        omega
    · by_cases h : isLineTerm c
      · have := ih.1
        simp [lc, h]
        omega
      · have h' : isLineTerm c = false := by simpa using h
        have := ih.2.2
        simp [lc, h']
        omega

theorem sb_len : ∀ (l p : List Char),
    (sb .norm l).length ≤ l.length ∧
    (sb (.afterSemi p) l).length ≤ 1 + p.length + l.length := by
  intro l
  induction l with
  | nil => intro p; simp [sb]; omega
  | cons c r ih =>
    intro p
    constructor
    · by_cases h : c = ';'
      · subst h
        have := (ih []).2
        simp [sb]
        simp at this
        omega
      · have := (ih p).1
        simp [sb, h]
        omega
    · by_cases hw : isWs c
      · have := (ih (c :: p)).2
        simp [sb, hw]
        simp at this
        omega
      · have hw' : isWs c = false := by simpa using hw
        by_cases hb : c = '\x7d'
        · subst hb
          have := (ih p).1
          simp [sb, hw']
          omega
        · by_cases hsemi : c = ';'
          · subst hsemi
            have := (ih []).2
            simp [sb, hw', hb]
            simp at this
            omega
          · have := (ih p).1
            simp [sb, hw', hb, hsemi]
            omega

theorem delWsAfter_len : ∀ (l : List Char) (t : Char) (b : Bool),
    (delWsAfter t b l).length ≤ l.length := by
  intro l
  induction l with
  | nil => intro t b; simp [delWsAfter]
  | cons c r ih =>
    intro t b
    by_cases hw : isWs c
    · cases b with
      | true =>
        have := ih t true
        simp [delWsAfter, hw]
        omega
      | false =>
        by_cases ht : c = t
        · subst ht
          have := ih c true
          simp [delWsAfter, hw]
          omega
        · have := ih t false
          simp [delWsAfter, hw, ht]
          omega
    · have hw' : isWs c = false := by simpa using hw
      by_cases ht : c = t
      · subst ht
        have := ih c true
        cases b <;> simp [delWsAfter, hw'] <;> omega
      · have := ih t false
        cases b <;> simp [delWsAfter, hw', ht] <;> omega

theorem pj_len : ∀ (l p : List Char),
    (pj (.norm p) l).length ≤ p.length + l.length ∧
    (pj .afterP l).length ≤ l.length := by
  intro l
  induction l with
  | nil => intro p; simp [pj]
  | cons c r ih =>
    intro p
    constructor
    · by_cases hw : isWs c
      · have := (ih (c :: p)).1
        simp [pj, hw]
        simp at this
        omega
      · have hw' : isWs c = false := by simpa using hw
        by_cases hp : isPunct c
        · have := (ih []).2
          simp [pj, hw', hp]
          omega
        · have hp' : isPunct c = false := by simpa using hp
          have := (ih []).1
          simp [pj, hw', hp']
          simp at this
          omega
    · by_cases hw : isWs c
      · have := (ih p).2
        simp [pj, hw]
        omega
      · have hw' : isWs c = false := by simpa using hw
        by_cases hp : isPunct c
        · have := (ih p).2
          simp [pj, hw', hp]
          omega
        · have hp' : isPunct c = false := by simpa using hp
          have := (ih []).1
          simp [pj, hw', hp']
          simp at this
          omega

theorem minifyHTMLList_len (l : List Char) :
    (minifyHTMLList l).length ≤ l.length := by
  unfold minifyHTMLList
  have h1 := collapse_len l false
  have h2 := (ga_len (collapseAux false l) []).1
  have h3 := wg_len (ga .norm (collapseAux false l)) []
  have h4 := lw_len (wg [] (ga .norm (collapseAux false l))) false
  have h5 := jsTrim_len (lw false (wg [] (ga .norm (collapseAux false l))))
  simp only [List.length_nil] at h3
  omega

theorem minifyCSSList_len (l : List Char) :
    (minifyCSSList l).length ≤ l.length := by
  unfold minifyCSSList
  have h1 : (bc .norm l).length ≤ l.length := (bc_len l []).1
  have h2 := collapse_len (bc .norm l) false
  have h3 := (sb_len (collapseAux false (bc .norm l)) []).1
  have h4 := delWsAfter_len (sb .norm (collapseAux false (bc .norm l))) '\x7b' false
  have h5 := delWsAfter_len (delWsAfter '\x7b' false
    (sb .norm (collapseAux false (bc .norm l)))) ';' false
  have h6 := delWsAfter_len (delWsAfter ';' false (delWsAfter '\x7b' false
    (sb .norm (collapseAux false (bc .norm l))))) ',' false
  have h7 := delWsAfter_len (delWsAfter ',' false (delWsAfter ';' false
    (delWsAfter '\x7b' false (sb .norm (collapseAux false (bc .norm l)))))) ':' false
  have h8 := jsTrim_len (delWsAfter ':' false (delWsAfter ',' false (delWsAfter ';' false
    (delWsAfter '\x7b' false (sb .norm (collapseAux false (bc .norm l)))))))
  omega

theorem minifyJSList_len (l : List Char) :
    (minifyJSList l).length ≤ l.length := by
  unfold minifyJSList
  have h1 : (bc .norm l).length ≤ l.length := (bc_len l []).1
  have h2 := (lc_len (bc .norm l)).1
  have h3 := collapse_len (lc .norm (bc .norm l)) false
  have h4 := (pj_len (collapseAux false (lc .norm (bc .norm l))) []).1
  have h5 := jsTrim_len (pj (.norm []) (collapseAux false (lc .norm (bc .norm l))))
  simp only [List.length_nil] at h4
  omega

/-! ## Path helpers (`path.basename`, `path.extname`, `path.dirname`,
`String.prototype.endsWith`, `String.prototype.includes`) -/

/-- `s.endsWith(suf)`: exact, case-sensitive suffix equality. -/
def endsW (s suf : String) : Bool :=
  s.data.drop (s.data.length - suf.data.length) == suf.data

/-- `s.startsWith(pre)` / path-prefix test used in statements. -/
def startsW (s pre : String) : Bool :=
  s.data.take pre.data.length == pre.data

/-- Substring containment on character lists (`String.prototype.includes`). -/
def listContains (sub : List Char) : List Char → Bool
  | [] => sub.isEmpty
  | c :: r => (List.take sub.length (c :: r) == sub) || listContains sub r

/-- `s.includes(sub)`. -/
def containsSub (s sub : String) : Bool := listContains sub.data s.data

/-- `path.basename(p)`: the part of the path after the last `'/'`. -/
def basename (p : String) : String :=
  ⟨(p.data.reverse.takeWhile (fun c => c != '/')).reverse⟩

/-- `path.basename(p, suffix)`: the basename with `suffix` removed when it is
a suffix of it (the form used with `'.scss'` and `'.ts'`). -/
def basenameExt (p suffix : String) : String :=
  let b := basename p
  if endsW b suffix then ⟨b.data.take (b.data.length - suffix.data.length)⟩ else b

/-- `path.extname(p)`: from the last `'.'` of the basename to the end; empty
when there is no dot or the only dot is the leading character. -/
def extname (p : String) : String :=
  let b := (basename p).data
  let after := b.reverse.takeWhile (fun c => c != '.')
  if after.length = b.length then ""
  else if after.length + 1 = b.length then ""
  else ⟨'.' :: after.reverse⟩

/-- `path.dirname(p)`. -/
def dirname (p : String) : String :=
  let d := p.data.reverse.dropWhile (fun c => c != '/')
  match d with
  | [] => "."
  | _ :: rest => if rest.isEmpty then "/" else ⟨rest.reverse⟩

theorem endsW_iff (s suf : String) :
    endsW s suf = true ↔ ∃ t, s.data = t ++ suf.data := by
  unfold endsW
  constructor
  · intro h
    rw [beq_iff_eq] at h
    refine ⟨s.data.take (s.data.length - suf.data.length), ?_⟩
    conv_lhs => rw [← List.take_append_drop (s.data.length - suf.data.length) s.data]
    rw [h]
  · rintro ⟨t, ht⟩
    rw [beq_iff_eq, ht]
    have : (t ++ suf.data).length - suf.data.length = t.length := by
      simp [List.length_append]
    rw [this, List.drop_left]

theorem startsW_iff (s pre : String) :
    startsW s pre = true ↔ ∃ t, s.data = pre.data ++ t := by
  unfold startsW
  constructor
  · intro h
    rw [beq_iff_eq] at h
    refine ⟨s.data.drop pre.data.length, ?_⟩
    conv_lhs => rw [← List.take_append_drop pre.data.length s.data]
    rw [h]
  · rintro ⟨t, ht⟩
    rw [beq_iff_eq, ht, List.take_left]

/-- The basename never contains a `'/'`. -/
theorem basename_no_slash (p : String) : ∀ c ∈ (basename p).data, c ≠ '/' := by
  intro c hc
  unfold basename at hc
  simp only [List.mem_reverse] at hc
  have h2 := List.mem_takeWhile_imp hc
  simpa using h2

/-! ## File-system trees and the scanner `getFiles` -/

mutual
/-- A directory entry: a file with its content, or a subdirectory. -/
inductive Entry where
  | file (name content : String) : Entry
  | dir (name : String) (children : Forest) : Entry
/-- The entry list of one directory (`fs.readdir` result). -/
inductive Forest where
  | nil : Forest
  | cons (e : Entry) (es : Forest) : Forest
end

mutual
/-- One step of `getFiles` (bundler.js 192-210) joined with the file read
that every task performs on the scanned paths: a file entry is kept (with
its content) when its name ends with the extension — exact, case-sensitive
suffix equality — and a directory entry is recursed into. -/
def entryFiles (pfx ext : String) : Entry → List (String × String)
  | .file n c => if endsW n ext then [(pfx ++ "/" ++ n, c)] else []
  | .dir n ch => forestFiles (pfx ++ "/" ++ n) ext ch
def forestFiles (pfx ext : String) : Forest → List (String × String)
  | .nil => []
  | .cons e es => entryFiles pfx ext e ++ forestFiles pfx ext es
end

/-- `getFiles(dir, extension)` with contents: `[]` when the root directory
does not exist (`pathExists` returns false, bundler.js line 193), otherwise
the recursive scan. -/
def scanFiles (root : Option Forest) (rootPath ext : String) :
    List (String × String) :=
  match root with
  | none => []
  | some es => forestFiles rootPath ext es

/-- `getFiles(dir, extension)` (paths only, as the source returns them). -/
def getFiles (root : Option Forest) (rootPath ext : String) : List String :=
  (scanFiles root rootPath ext).map Prod.fst

mutual
/-- Specification helper: all files of an entry as (full path, bare name)
pairs, with no extension filtering. -/
def entryAll (pfx : String) : Entry → List (String × String)
  | .file n _ => [(pfx ++ "/" ++ n, n)]
  | .dir n ch => forestAll (pfx ++ "/" ++ n) ch
def forestAll (pfx : String) : Forest → List (String × String)
  | .nil => []
  | .cons e es => entryAll pfx e ++ forestAll pfx es
end

mutual
theorem entryFiles_spec (pfx ext : String) : ∀ e : Entry,
    (entryFiles pfx ext e).map Prod.fst =
      ((entryAll pfx e).filter (fun pr => endsW pr.2 ext)).map Prod.fst
  | .file n c => by
    by_cases h : endsW n ext <;> simp [entryFiles, entryAll, h]
  | .dir n ch => by
    simp only [entryFiles, entryAll]
    exact forestFiles_spec (pfx ++ "/" ++ n) ext ch
theorem forestFiles_spec (pfx ext : String) : ∀ es : Forest,
    (forestFiles pfx ext es).map Prod.fst =
      ((forestAll pfx es).filter (fun pr => endsW pr.2 ext)).map Prod.fst
  | .nil => rfl
  | .cons e es => by
    simp only [forestFiles, forestAll, List.filter_append, List.map_append]
    rw [entryFiles_spec pfx ext e, forestFiles_spec pfx ext es]
end

mutual
theorem entryFiles_pfx (pfx ext : String) : ∀ (e : Entry) (pr : String × String),
    pr ∈ entryFiles pfx ext e → ∃ t, pr.1.data = pfx.data ++ '/' :: t
  | .file n c, pr, h => by
    simp only [entryFiles] at h
    by_cases he : endsW n ext
    · rw [if_pos he] at h
      simp only [List.mem_singleton] at h
      subst h
      exact ⟨n.data, by simp [String.data_append]⟩
    · rw [if_neg he] at h
      simp at h
  | .dir n ch, pr, h => by
    simp only [entryFiles] at h
    obtain ⟨t, ht⟩ := forestFiles_pfx (pfx ++ "/" ++ n) ext ch pr h
    refine ⟨n.data ++ '/' :: t, ?_⟩
    rw [ht]
    simp [String.data_append]
theorem forestFiles_pfx (pfx ext : String) : ∀ (es : Forest) (pr : String × String),
    pr ∈ forestFiles pfx ext es → ∃ t, pr.1.data = pfx.data ++ '/' :: t
  | .cons e es, pr, h => by
    simp only [forestFiles, List.mem_append] at h
    rcases h with h | h
    · exact entryFiles_pfx pfx ext e pr h
    · exact forestFiles_pfx pfx ext es pr h
end

/-! ## Effect traces, build configuration and the five tasks -/

/-- Observable effects of the pipeline.  `read`/`write` are `fs.readFile` /
`fs.writeFile`, `compileTs` is the `npx tsc` subprocess, `sassC` is
`sass.compile`, `mkdir` is `ensureDir`, `evChange` is the `'change'` event
arriving in watch mode (the `🔄 Archivo modificado` log), `taskStart` /
`taskDone` are the per-task `📦` / `✅` logs of the orchestrator loop. -/
inductive Act where
  | taskStart (name : String) : Act
  | taskDone (name : String) : Act
  | read (path : String) : Act
  | write (path content : String) : Act
  | compileTs (path : String) : Act
  | sassC (path : String) : Act
  | mkdir (path : String) : Act
  | log (msg : String) : Act
  | evChange (path : String) : Act
  deriving DecidableEq

/-- The constant directories of the `CVBundler` options (the source resolves
them to absolute paths with `path.resolve`; relative names model them). -/
def srcDir : String := "src"

def dataDir : String := "data"

def assetsDir : String := "assets"

def distDir : String := "dist"

/-- A build world: the state of the three watched roots (`none` = the
directory does not exist) plus the two external compilers as oracles and the
`--dev` flag. -/
structure World where
  srcTree : Option Forest
  assetsTree : Option Forest
  dataTree : Option Forest
  tsc : String → Except String Unit
  sass : String → Except String (String × Option String)
  dev : Bool

/-- Markup output content: minified exactly in production mode
(bundler.js lines 70-74). -/
def htmlOut (dev : Bool) (content : String) : String :=
  if dev then content else minifyHTML content

/-- Plain-stylesheet output content (bundler.js lines 107-110). -/
def cssOut (dev : Bool) (content : String) : String :=
  if dev then content else minifyCSS content

/-- Plain-script output content (bundler.js lines 143-146). -/
def jsOut (dev : Bool) (content : String) : String :=
  if dev then content else minifyJS content

/-- The write plan of `processHTML` over the scanned markup files: each file
is read and written flat under `dist/<basename>` (bundler.js 61-78). -/
def htmlWrites (dev : Bool) (files : List (String × String)) : List Act :=
  files.flatMap (fun pc =>
    [Act.read pc.1, Act.write (distDir ++ "/" ++ basename pc.1) (htmlOut dev pc.2)])

/-- `processHTML()` (bundler.js 61-78). -/
def processHTML (w : World) : List Act :=
  htmlWrites w.dev (scanFiles w.srcTree srcDir ".html")

/-- The source-map write of one compiled stylesheet: only in dev mode and
only when the compiler produced a map (bundler.js 96-98). -/
def mapWrites (dev : Bool) (outPath : String) (smap : Option String) : List Act :=
  if dev then
    match smap with
    | some m => [Act.write (outPath ++ ".map") m]
    | none => []
  else []

/-- The output path of one compiled stylesheet (bundler.js 91-92). -/
def scssOutPath (p : String) : String :=
  distDir ++ "/" ++ basenameExt p ".scss" ++ ".css"

/-- The `.scss` loop of `processStyles` (bundler.js 85-99): `sass.compile`
per file; on success the compiled stylesheet is written to
`dist/<basename minus .scss>.css` (plus a `.map` file in dev mode when the
compiler returned a source map); a compiler exception aborts the loop. -/
def scssLoop (w : World) : List (String × String) → List Act × Option String
  | [] => ([], none)
  | pc :: rest =>
    match w.sass pc.1 with
    | .ok res =>
      (Act.sassC pc.1 :: Act.write (scssOutPath pc.1) res.1 ::
        (mapWrites w.dev (scssOutPath pc.1) res.2 ++ (scssLoop w rest).1),
       (scssLoop w rest).2)
    | .error m => ([Act.sassC pc.1], some m)

/-- The `.css` copy loop of `processStyles` (bundler.js 102-113). -/
def cssActs (w : World) : List Act :=
  (scanFiles w.srcTree srcDir ".css").flatMap (fun pc =>
    [Act.read pc.1, Act.write (distDir ++ "/" ++ basename pc.1) (cssOut w.dev pc.2)])

/-- `processStyles()` (bundler.js 80-114): the `.scss` loop first; a sass
failure propagates and the `.css` loop never runs. -/
def processStyles (w : World) : List Act × Option String :=
  match (scssLoop w (scanFiles w.srcTree srcDir ".scss")).2 with
  | some m => ((scssLoop w (scanFiles w.srcTree srcDir ".scss")).1, some m)
  | none => ((scssLoop w (scanFiles w.srcTree srcDir ".scss")).1 ++ cssActs w, none)

/-- The TypeScript loop of `processScripts` (bundler.js 121-135): one
`npx tsc` subprocess per file; a non-zero exit is logged with the file path
and the compiler message and then rethrown, aborting the loop. -/
def tsLoop (w : World) : List String → List Act × Option String
  | [] => ([], none)
  | p :: rest =>
    match w.tsc p with
    | .ok _ =>
      (Act.compileTs p ::
        Act.log ("✅ TypeScript compilado: " ++ basenameExt p ".ts" ++ ".js") ::
          (tsLoop w rest).1,
       (tsLoop w rest).2)
    | .error m =>
      ([Act.compileTs p, Act.log ("❌ Error compilando TypeScript " ++ p ++ ": " ++ m)],
       some m)

/-- The `.js` copy loop of `processScripts` (bundler.js 138-149). -/
def jsActs (w : World) : List Act :=
  (scanFiles w.srcTree srcDir ".js").flatMap (fun pc =>
    [Act.read pc.1, Act.write (distDir ++ "/" ++ basename pc.1) (jsOut w.dev pc.2)])

/-- `processScripts()` (bundler.js 116-150): the TypeScript loop first; a
compiler failure propagates and the remaining plain-script copies never
run. -/
def processScripts (w : World) : List Act × Option String :=
  match (tsLoop w (getFiles w.srcTree srcDir ".ts")).2 with
  | some m => ((tsLoop w (getFiles w.srcTree srcDir ".ts")).1, some m)
  | none => ((tsLoop w (getFiles w.srcTree srcDir ".ts")).1 ++ jsActs w, none)

mutual
/-- One entry of `copyDirectory` (bundler.js 231-245): files are copied
byte-for-byte, directories are recursed into (with `ensureDir` at each
level). -/
def entryCopy (dp : String) : Entry → List Act
  | .file n c => [Act.write (dp ++ "/" ++ n) c]
  | .dir n ch => Act.mkdir (dp ++ "/" ++ n) :: forestCopy (dp ++ "/" ++ n) ch
def forestCopy (dp : String) : Forest → List Act
  | .nil => []
  | .cons e es => entryCopy dp e ++ forestCopy dp es
end

/-- `copyDirectory(src, dest)`: `ensureDir(dest)` then the recursive copy. -/
def copyDir (dp : String) (f : Forest) : List Act :=
  Act.mkdir dp :: forestCopy dp f

/-- The placeholder image synthesized for a missing assets root
(bundler.js 159-165). -/
def placeholderSVG : String :=
  "<?xml version=\"1.0\" encoding=\"UTF-8\"?>\n<svg width=\"300\" height=\"300\" viewBox=\"0 0 300 300\" xmlns=\"http://www.w3.org/2000/svg\">\n    <rect width=\"300\" height=\"300\" fill=\"#e5e7eb\"/>\n    <circle cx=\"150\" cy=\"120\" r=\"40\" fill=\"#9ca3af\"/>\n    <path d=\"M150 180 C120 180 90 200 90 220 L90 250 L210 250 L210 220 C210 200 180 180 150 180 Z\" fill=\"#9ca3af\"/>\n    <text x=\"150\" y=\"280\" text-anchor=\"middle\" fill=\"#6b7280\" font-size=\"14\" font-family=\"Arial\">Foto de Perfil</text>\n</svg>"

/-- `processAssets()` (bundler.js 152-178): synthesize the assets root with
one placeholder image when it is missing, then mirror it into
`dist/assets`. -/
def processAssets (w : World) : List Act :=
  let synth : List Act × Forest :=
    match w.assetsTree with
    | none =>
      ([Act.log "📁 Creando directorio assets de ejemplo...", Act.mkdir assetsDir,
        Act.mkdir (assetsDir ++ "/images"),
        Act.write (assetsDir ++ "/images/profile.jpg") placeholderSVG],
       .cons (.dir "images" (.cons (.file "profile.jpg" placeholderSVG) .nil)) .nil)
    | some t => ([], t)
  synth.1 ++ Act.mkdir (distDir ++ "/assets") ::
    copyDir (distDir ++ "/assets") synth.2

/-- `processData()` (bundler.js 180-189): skip silently when the data root
is missing, else mirror it into `dist/data`. -/
def processData (w : World) : List Act :=
  match w.dataTree with
  | none => [Act.log "📄 Directorio data no encontrado, saltando..."]
  | some t => Act.mkdir (distDir ++ "/data") :: copyDir (distDir ++ "/data") t

/-! ## The orchestrator -/

/-- The key set of `this.tasks` in insertion order (bundler.js 21-27);
`Object.entries` iterates these string keys in exactly this order. -/
def taskNames : List String := ["html", "styles", "scripts", "assets", "data"]

/-- Dispatch of one named task; only `styles` and `scripts` can fail. -/
def runTask (w : World) (name : String) : List Act × Option String :=
  match name with
  | "html" => (processHTML w, none)
  | "styles" => processStyles w
  | "scripts" => processScripts w
  | "assets" => (processAssets w, none)
  | "data" => (processData w, none)
  | _ => ([], none)

/-- The `for (const [name, task] of tasks)` loop of `build` (bundler.js
41-46): each task is bracketed by its `📦`/`✅` logs; the first failure
stops the loop and propagates. -/
def buildLoop (w : World) : List String → List Act × Option String
  | [] => ([], none)
  | n :: rest =>
    match (runTask w n).2 with
    | some m => (Act.taskStart n :: (runTask w n).1, some m)
    | none =>
      (Act.taskStart n :: ((runTask w n).1 ++ Act.taskDone n :: (buildLoop w rest).1),
       (buildLoop w rest).2)

/-- `build()` (bundler.js 30-59): create the output directories, run the
five tasks in order; on any error log it and exit with status 1, else
status 0. -/
def build (w : World) : List Act × Nat :=
  let pre := [Act.mkdir distDir, Act.mkdir (distDir ++ "/data"),
    Act.mkdir (distDir ++ "/assets")]
  match buildLoop w taskNames with
  | (a, some m) =>
    (pre ++ a ++ [Act.log ("❌ Error durante la construcción: " ++ m)], 1)
  | (a, none) => (pre ++ a, 0)

/-! ## The watch-mode change handler -/

/-- The five asset kinds. -/
inductive Kind where
  | markup : Kind
  | stylesheet : Kind
  | script : Kind
  | asset : Kind
  | data : Kind
  deriving DecidableEq

/-- The `if`/`else if` router of the `'change'` callback (bundler.js
298-316): extension checks first, then the `dir.includes` location checks;
unmatched paths map to `none`. -/
def routeKind (p : String) : Option Kind :=
  let ext := extname p
  let dir := dirname p
  if ext = ".html" then some .markup
  else if ext = ".scss" ∨ ext = ".css" then some .stylesheet
  else if ext = ".ts" ∨ ext = ".js" then some .script
  else if containsSub dir "assets" then some .asset
  else if containsSub dir "data" then some .data
  else none

/-- The task invocation a routed kind performs. -/
def taskActsOf (w : World) (k : Kind) : List Act × Option String :=
  match k with
  | .markup => (processHTML w, none)
  | .stylesheet => processStyles w
  | .script => processScripts w
  | .asset => (processAssets w, none)
  | .data => (processData w, none)

/-- The `✅ ... actualizados` log of each branch. -/
def okMsg : Kind → String
  | .markup => "✅ HTML actualizado"
  | .stylesheet => "✅ Estilos actualizados"
  | .script => "✅ Scripts actualizados"
  | .asset => "✅ Assets actualizados"
  | .data => "✅ Datos actualizados"

/-- The whole `'change'` callback (bundler.js 294-322): log the changed
path, route it, run the single routed task inside `try`; a task failure is
caught and logged (never rethrown), success is followed by the `✅` and `🔥`
logs.  The handler is a total function: it never propagates an error. -/
def handleChange (w : World) (p : String) : List Act :=
  Act.evChange p ::
    match routeKind p with
    | none => [Act.log "🔥 Recarga tu navegador para ver los cambios"]
    | some k =>
      match (taskActsOf w k).2 with
      | some m => (taskActsOf w k).1 ++ [Act.log ("❌ Error procesando cambio: " ++ m)]
      | none => (taskActsOf w k).1 ++ [Act.log (okMsg k),
          Act.log "🔥 Recarga tu navegador para ver los cambios"]

/-- The resident watch loop: every delivered change event is handled by
`handleChange`; processing continues regardless of per-event failures. -/
def runWatch (w : World) (events : List String) : List Act :=
  events.flatMap (handleChange w)

/-- Replay the writes of a trace over a file-system state (last write to a
path wins, as `fs.writeFile` overwrites). -/
def applyActs (fs : String → Option String) (acts : List Act) :
    String → Option String :=
  acts.foldl (fun f a =>
    match a with
    | .write p c => fun q => if q = p then some c else f q
    | _ => f) fs

/-! ## Trace bookkeeping lemmas -/

/-- Acts a transformer task itself can emit (no orchestrator markers, no
watch events). -/
def isPlainAct : Act → Bool
  | .taskStart _ => false
  | .taskDone _ => false
  | .evChange _ => false
  | _ => true

/-- Orchestrator task markers. -/
def isMarker : Act → Bool
  | .taskStart _ => true
  | .taskDone _ => true
  | _ => false

/-- Watch-event markers. -/
def isEvChange : Act → Bool
  | .evChange _ => true
  | _ => false

theorem scssLoop_cons_err (w : World) (pc : String × String)
    (rest : List (String × String)) (m : String) (h : w.sass pc.1 = .error m) :
    scssLoop w (pc :: rest) = ([Act.sassC pc.1], some m) := by
  simp [scssLoop, h]

theorem scssLoop_cons_ok (w : World) (pc : String × String)
    (rest : List (String × String)) (res : String × Option String)
    (h : w.sass pc.1 = .ok res) :
    scssLoop w (pc :: rest) =
      (Act.sassC pc.1 :: Act.write (scssOutPath pc.1) res.1 ::
        (mapWrites w.dev (scssOutPath pc.1) res.2 ++ (scssLoop w rest).1),
       (scssLoop w rest).2) := by
  simp [scssLoop, h]

theorem tsLoop_cons_ok (w : World) (p : String) (rest : List String) (u : Unit)
    (h : w.tsc p = .ok u) :
    tsLoop w (p :: rest) =
      (Act.compileTs p ::
        Act.log ("✅ TypeScript compilado: " ++ basenameExt p ".ts" ++ ".js") ::
          (tsLoop w rest).1,
       (tsLoop w rest).2) := by
  simp [tsLoop, h]

theorem tsLoop_cons_err (w : World) (p : String) (rest : List String) (m : String)
    (h : w.tsc p = .error m) :
    tsLoop w (p :: rest) =
      ([Act.compileTs p, Act.log ("❌ Error compilando TypeScript " ++ p ++ ": " ++ m)],
       some m) := by
  simp [tsLoop, h]

theorem processStyles_eq_ok (w : World)
    (h : (scssLoop w (scanFiles w.srcTree srcDir ".scss")).2 = none) :
    processStyles w =
      ((scssLoop w (scanFiles w.srcTree srcDir ".scss")).1 ++ cssActs w, none) := by
  simp [processStyles, h]

theorem processStyles_eq_err (w : World) (m : String)
    (h : (scssLoop w (scanFiles w.srcTree srcDir ".scss")).2 = some m) :
    processStyles w =
      ((scssLoop w (scanFiles w.srcTree srcDir ".scss")).1, some m) := by
  simp [processStyles, h]

theorem processScripts_eq_ok (w : World)
    (h : (tsLoop w (getFiles w.srcTree srcDir ".ts")).2 = none) :
    processScripts w =
      ((tsLoop w (getFiles w.srcTree srcDir ".ts")).1 ++ jsActs w, none) := by
  simp [processScripts, h]

theorem processScripts_eq_err (w : World) (m : String)
    (h : (tsLoop w (getFiles w.srcTree srcDir ".ts")).2 = some m) :
    processScripts w =
      ((tsLoop w (getFiles w.srcTree srcDir ".ts")).1, some m) := by
  simp [processScripts, h]

theorem mem_mapWrites {dev : Bool} {outPath : String} {smap : Option String}
    {a : Act} (h : a ∈ mapWrites dev outPath smap) :
    ∃ c, a = Act.write (outPath ++ ".map") c := by
  unfold mapWrites at h
  cases dev with
  | false => simp at h
  | true =>
    cases smap with
    | none => simp at h
    | some m =>
      simp at h
      exact ⟨m, h⟩

theorem htmlWrites_plain (dev : Bool) (files : List (String × String)) :
    ∀ a ∈ htmlWrites dev files, isPlainAct a = true := by
  intro a ha
  unfold htmlWrites at ha
  rw [List.mem_flatMap] at ha
  obtain ⟨pc, _, hmem⟩ := ha
  simp only [List.mem_cons, List.not_mem_nil, or_false] at hmem
  rcases hmem with rfl | rfl <;> rfl

theorem scssLoop_acts (w : World) : ∀ l, ∀ a ∈ (scssLoop w l).1,
    (∃ pc ∈ l, a = Act.sassC pc.1) ∨ ∃ p c, a = Act.write p c := by
  intro l
  induction l with
  | nil => intro a ha; simp [scssLoop] at ha
  | cons pc rest ih =>
    intro a ha
    rcases hres : w.sass pc.1 with m | res
    · rw [scssLoop_cons_err w pc rest m hres] at ha
      simp only [List.mem_singleton] at ha
      exact Or.inl ⟨pc, List.mem_cons_self .., ha⟩
    · rw [scssLoop_cons_ok w pc rest res hres] at ha
      simp only [List.mem_cons, List.mem_append] at ha
      rcases ha with rfl | rfl | h | h
      · exact Or.inl ⟨pc, List.mem_cons_self .., rfl⟩
      · exact Or.inr ⟨_, _, rfl⟩
      · obtain ⟨c, rfl⟩ := mem_mapWrites h
        exact Or.inr ⟨_, _, rfl⟩
      · rcases ih a h with ⟨pc', hpc', rfl⟩ | h'
        · exact Or.inl ⟨pc', List.mem_cons_of_mem _ hpc', rfl⟩
        · exact Or.inr h'

theorem scssLoop_plain (w : World) :
    ∀ l, ∀ a ∈ (scssLoop w l).1, isPlainAct a = true := by
  intro l a ha
  rcases scssLoop_acts w l a ha with ⟨pc, _, rfl⟩ | ⟨p, c, rfl⟩ <;> rfl

theorem cssActs_plain (w : World) : ∀ a ∈ cssActs w, isPlainAct a = true := by
  intro a ha
  unfold cssActs at ha
  rw [List.mem_flatMap] at ha
  obtain ⟨pc, _, hmem⟩ := ha
  simp only [List.mem_cons, List.not_mem_nil, or_false] at hmem
  rcases hmem with rfl | rfl <;> rfl

theorem tsLoop_acts (w : World) : ∀ l, ∀ a ∈ (tsLoop w l).1,
    (∃ p ∈ l, a = Act.compileTs p) ∨ ∃ m, a = Act.log m := by
  intro l
  induction l with
  | nil => intro a ha; simp [tsLoop] at ha
  | cons p rest ih =>
    intro a ha
    rcases hres : w.tsc p with m | u
    · rw [tsLoop_cons_err w p rest m hres] at ha
      simp only [List.mem_cons, List.not_mem_nil, or_false] at ha
      rcases ha with rfl | rfl
      · exact Or.inl ⟨p, List.mem_cons_self .., rfl⟩
      · exact Or.inr ⟨_, rfl⟩
    · rw [tsLoop_cons_ok w p rest u hres] at ha
      simp only [List.mem_cons] at ha
      rcases ha with rfl | rfl | h
      · exact Or.inl ⟨p, List.mem_cons_self .., rfl⟩
      · exact Or.inr ⟨_, rfl⟩
      · rcases ih a h with ⟨p', hp', rfl⟩ | h'
        · exact Or.inl ⟨p', List.mem_cons_of_mem _ hp', rfl⟩
        · exact Or.inr h'

theorem tsLoop_plain (w : World) :
    ∀ l, ∀ a ∈ (tsLoop w l).1, isPlainAct a = true := by
  intro l a ha
  rcases tsLoop_acts w l a ha with ⟨p, _, rfl⟩ | ⟨m, rfl⟩ <;> rfl

theorem jsActs_plain (w : World) : ∀ a ∈ jsActs w, isPlainAct a = true := by
  intro a ha
  unfold jsActs at ha
  rw [List.mem_flatMap] at ha
  obtain ⟨pc, _, hmem⟩ := ha
  simp only [List.mem_cons, List.not_mem_nil, or_false] at hmem
  rcases hmem with rfl | rfl <;> rfl

mutual
theorem entryCopy_plain (dp : String) : ∀ (e : Entry), ∀ a ∈ entryCopy dp e,
    isPlainAct a = true
  | .file n c, a, ha => by
    simp only [entryCopy, List.mem_singleton] at ha
    subst ha; rfl
  | .dir n ch, a, ha => by
    simp only [entryCopy, List.mem_cons] at ha
    rcases ha with h | h
    · subst h; rfl
    · exact forestCopy_plain (dp ++ "/" ++ n) ch a h
theorem forestCopy_plain (dp : String) : ∀ (es : Forest), ∀ a ∈ forestCopy dp es,
    isPlainAct a = true
  | .cons e es, a, ha => by
    simp only [forestCopy, List.mem_append] at ha
    rcases ha with h | h
    · exact entryCopy_plain dp e a h
    · exact forestCopy_plain dp es a h
end

theorem copyDir_plain (dp : String) (f : Forest) :
    ∀ a ∈ copyDir dp f, isPlainAct a = true := by
  intro a ha
  simp only [copyDir, List.mem_cons] at ha
  rcases ha with h | h
  · subst h; rfl
  · exact forestCopy_plain dp f a h

theorem processHTML_plain (w : World) : ∀ a ∈ processHTML w, isPlainAct a = true :=
  htmlWrites_plain w.dev _

theorem processStyles_plain (w : World) :
    ∀ a ∈ (processStyles w).1, isPlainAct a = true := by
  intro a ha
  rcases hs : (scssLoop w (scanFiles w.srcTree srcDir ".scss")).2 with _ | m
  · rw [processStyles_eq_ok w hs] at ha
    simp only [List.mem_append] at ha
    rcases ha with h | h
    · exact scssLoop_plain w _ a h
    · exact cssActs_plain w a h
  · rw [processStyles_eq_err w m hs] at ha
    exact scssLoop_plain w _ a ha

theorem processScripts_plain (w : World) :
    ∀ a ∈ (processScripts w).1, isPlainAct a = true := by
  intro a ha
  rcases hs : (tsLoop w (getFiles w.srcTree srcDir ".ts")).2 with _ | m
  · rw [processScripts_eq_ok w hs] at ha
    simp only [List.mem_append] at ha
    rcases ha with h | h
    · exact tsLoop_plain w _ a h
    · exact jsActs_plain w a h
  · rw [processScripts_eq_err w m hs] at ha
    exact tsLoop_plain w _ a ha

theorem processAssets_plain (w : World) :
    ∀ a ∈ processAssets w, isPlainAct a = true := by
  intro a ha
  unfold processAssets at ha
  rcases ht : w.assetsTree with _ | t <;> rw [ht] at ha <;>
    simp only [List.mem_append, List.mem_cons, List.not_mem_nil, or_false,
      List.nil_append] at ha
  · rcases ha with (rfl | rfl | rfl | rfl) | rfl | h
    · rfl
    · rfl
    · rfl
    · rfl
    · rfl
    · exact copyDir_plain _ _ a h
  · rcases ha with rfl | h
    · rfl
    · exact copyDir_plain _ _ a h

theorem processData_plain (w : World) :
    ∀ a ∈ processData w, isPlainAct a = true := by
  intro a ha
  unfold processData at ha
  rcases ht : w.dataTree with _ | t <;> rw [ht] at ha
  · simp only [List.mem_singleton] at ha
    subst ha; rfl
  · simp only [List.mem_cons] at ha
    rcases ha with rfl | h
    · rfl
    · exact copyDir_plain _ _ a h

theorem taskActsOf_plain (w : World) (k : Kind) :
    ∀ a ∈ (taskActsOf w k).1, isPlainAct a = true := by
  cases k with
  | markup => exact processHTML_plain w
  | stylesheet => exact processStyles_plain w
  | script => exact processScripts_plain w
  | asset => exact processAssets_plain w
  | data => exact processData_plain w

theorem plain_not_marker {a : Act} (h : isPlainAct a = true) : isMarker a = false := by
  cases a <;> simp [isPlainAct, isMarker] at *

theorem plain_not_evChange {a : Act} (h : isPlainAct a = true) :
    isEvChange a = false := by
  cases a <;> simp [isPlainAct, isEvChange] at *

theorem filter_marker_nil {l : List Act} (h : ∀ a ∈ l, isPlainAct a = true) :
    l.filter isMarker = [] := by
  rw [List.filter_eq_nil_iff]
  intro a ha
  simp [plain_not_marker (h a ha)]

theorem filter_evChange_nil {l : List Act} (h : ∀ a ∈ l, isPlainAct a = true) :
    l.filter isEvChange = [] := by
  rw [List.filter_eq_nil_iff]
  intro a ha
  simp [plain_not_evChange (h a ha)]

/-- Replaying a trace that never writes `q` leaves `q` unchanged. -/
theorem applyActs_miss {q : String} (fs : String → Option String) :
    ∀ acts : List Act, (∀ p c, Act.write p c ∈ acts → p ≠ q) →
      applyActs fs acts q = fs q := by
  intro acts
  induction acts generalizing fs with
  | nil => intro _; rfl
  | cons a rest ih =>
    intro h
    have hrest : ∀ p c, Act.write p c ∈ rest → p ≠ q :=
      fun p' c' hm => h p' c' (List.mem_cons_of_mem _ hm)
    cases a with
    | write p c =>
      have hp : p ≠ q := h p c (List.mem_cons_self ..)
      have hstep : applyActs fs (Act.write p c :: rest) q =
          applyActs (fun q' => if q' = p then some c else fs q') rest q := rfl
      rw [hstep, ih _ hrest]
      exact if_neg (fun hqp => hp hqp.symm)
    | taskStart n => exact ih fs hrest
    | taskDone n => exact ih fs hrest
    | read p => exact ih fs hrest
    | compileTs p => exact ih fs hrest
    | sassC p => exact ih fs hrest
    | mkdir p => exact ih fs hrest
    | log m => exact ih fs hrest
    | evChange p => exact ih fs hrest

theorem applyActs_append (fs : String → Option String) (a b : List Act) :
    applyActs fs (a ++ b) = applyActs (applyActs fs a) b := by
  unfold applyActs
  rw [List.foldl_append]

/-! ## Path-shape lemmas -/

theorem string_append_left_cancel {d x y : String} (h : d ++ x = d ++ y) : x = y := by
  apply String.ext
  have hd := congrArg String.data h
  rw [String.data_append, String.data_append] at hd
  exact List.append_cancel_left hd

mutual
/-- Every path the scanner returns ends with the extension (the name does,
and the name is a path suffix). -/
theorem entryFiles_suffix (pfx ext : String) : ∀ (e : Entry) (pr : String × String),
    pr ∈ entryFiles pfx ext e → endsW pr.1 ext = true
  | .file n c, pr, h => by
    simp only [entryFiles] at h
    by_cases he : endsW n ext
    · rw [if_pos he] at h
      simp only [List.mem_singleton] at h
      subst h
      obtain ⟨t, ht⟩ := (endsW_iff n ext).mp he
      rw [endsW_iff]
      refine ⟨pfx.data ++ '/' :: t, ?_⟩
      simp [String.data_append, ht]
    · rw [if_neg he] at h
      simp at h
  | .dir n ch, pr, h => by
    simp only [entryFiles] at h
    exact forestFiles_suffix (pfx ++ "/" ++ n) ext ch pr h
theorem forestFiles_suffix (pfx ext : String) : ∀ (es : Forest) (pr : String × String),
    pr ∈ forestFiles pfx ext es → endsW pr.1 ext = true
  | .cons e es, pr, h => by
    simp only [forestFiles, List.mem_append] at h
    rcases h with h | h
    · exact entryFiles_suffix pfx ext e pr h
    · exact forestFiles_suffix pfx ext es pr h
end

theorem scanFiles_suffix (root : Option Forest) (rootPath ext : String) :
    ∀ pr ∈ scanFiles root rootPath ext, endsW pr.1 ext = true := by
  intro pr h
  cases root with
  | none => simp [scanFiles] at h
  | some es => exact forestFiles_suffix rootPath ext es pr h

theorem scanFiles_pfx (root : Option Forest) (rootPath ext : String) :
    ∀ pr ∈ scanFiles root rootPath ext, ∃ t, pr.1.data = rootPath.data ++ '/' :: t := by
  intro pr h
  cases root with
  | none => simp [scanFiles] at h
  | some es => exact forestFiles_pfx rootPath ext es pr h

/-- The basename keeps any slash-free suffix of the path. -/
theorem basename_endsW {s suf : String} (h : endsW s suf = true)
    (hsuf : ∀ c ∈ suf.data, c ≠ '/') : endsW (basename s) suf = true := by
  obtain ⟨t, ht⟩ := (endsW_iff s suf).mp h
  rw [endsW_iff]
  have hrev : s.data.reverse = suf.data.reverse ++ t.reverse := by
    rw [ht, List.reverse_append]
  have hall : ∀ x ∈ suf.data.reverse, (x != '/') = true := by
    intro x hx
    simpa using hsuf x (List.mem_reverse.mp hx)
  have htk : s.data.reverse.takeWhile (fun c => c != '/') =
      suf.data.reverse ++ t.reverse.takeWhile (fun c => c != '/') := by
    rw [hrev]
    exact List.takeWhile_append_of_pos hall
  refine ⟨(t.reverse.takeWhile (fun c => c != '/')).reverse, ?_⟩
  show (basename s).data = _
  unfold basename
  rw [htk, List.reverse_append, List.reverse_reverse]

theorem endsW_lastChar {q suf : String} (h : endsW q suf = true) {c : Char}
    (hc : suf.data.getLast? = some c) : q.data.getLast? = some c := by
  obtain ⟨t, ht⟩ := (endsW_iff q suf).mp h
  have hne : suf.data ≠ [] := by
    intro hnil
    rw [hnil] at hc
    cases hc
  rw [ht, List.getLast?_append_of_ne_nil t hne, hc]

/-- A write of `processHTML` always targets `dist/<b>` for a slash-free
basename `b` ending in `.html`. -/
theorem processHTML_write_shape (w : World) : ∀ p c,
    Act.write p c ∈ processHTML w →
    ∃ b : String, p = distDir ++ "/" ++ b ∧ (∀ ch ∈ b.data, ch ≠ '/') ∧
      endsW b ".html" = true := by
  intro p c hmem
  unfold processHTML htmlWrites at hmem
  rw [List.mem_flatMap] at hmem
  obtain ⟨pc, hpc, hin⟩ := hmem
  simp only [List.mem_cons, List.not_mem_nil, or_false] at hin
  rcases hin with h | h
  · cases h
  · have hp : p = distDir ++ "/" ++ basename pc.1 := by
      cases h; rfl
    refine ⟨basename pc.1, hp, basename_no_slash pc.1, ?_⟩
    have hsuffix := scanFiles_suffix w.srcTree srcDir ".html" pc hpc
    exact basename_endsW hsuffix (by decide)

/-! ## The first failing TypeScript file -/

/-- The first `.ts` file of the scan on which the compiler exits non-zero,
together with its diagnostic. -/
def firstFailAux (w : World) : List String → Option (String × String)
  | [] => none
  | p :: rest =>
    match w.tsc p with
    | .ok _ => firstFailAux w rest
    | .error m => some (p, m)

def firstTsFail (w : World) : Option (String × String) :=
  firstFailAux w (getFiles w.srcTree srcDir ".ts")

theorem tsLoop_fail (w : World) : ∀ (l : List String) (f m : String),
    firstFailAux w l = some (f, m) →
    (tsLoop w l).2 = some m ∧
    Act.log ("❌ Error compilando TypeScript " ++ f ++ ": " ++ m) ∈ (tsLoop w l).1 ∧
    ∀ p c, Act.write p c ∉ (tsLoop w l).1 := by
  intro l
  induction l with
  | nil => intro f m h; simp [firstFailAux] at h
  | cons p rest ih =>
    intro f m h
    rcases hres : w.tsc p with m' | u
    · rw [show firstFailAux w (p :: rest) = some (p, m') by simp [firstFailAux, hres]]
        at h
      have hpm : p = f ∧ m' = m := by simpa using h
      obtain ⟨rfl, rfl⟩ := hpm
      rw [tsLoop_cons_err w p rest m' hres]
      refine ⟨rfl, by simp, ?_⟩
      intro p' c' hmem
      simp only [List.mem_cons, List.not_mem_nil, or_false] at hmem
      rcases hmem with h' | h' <;> cases h'
    · rw [show firstFailAux w (p :: rest) = firstFailAux w rest by
        simp [firstFailAux, hres]] at h
      obtain ⟨h1, h2, h3⟩ := ih f m h
      rw [tsLoop_cons_ok w p rest u hres]
      refine ⟨h1, by simp [h2], ?_⟩
      intro p' c' hmem
      simp only [List.mem_cons] at hmem
      rcases hmem with h' | h' | h'
      · cases h'
      · cases h'
      · exact h3 p' c' h'

/-! ## Claim theorems -/

/-- C8: for every extension string, `getFiles` on a non-existent root
returns the empty sequence (and, being a total function, never raises);
on an existing root it returns exactly the files of the tree whose names
end with the extension, by exact case-sensitive suffix equality
(`endsW`). -/
theorem C8_scanner_spec :
    (∀ rootPath ext : String, getFiles none rootPath ext = []) ∧
    ∀ (es : Forest) (rootPath ext : String),
      getFiles (some es) rootPath ext =
        ((forestAll rootPath es).filter (fun pr => endsW pr.2 ext)).map Prod.fst := by
  refine ⟨fun _ _ => rfl, ?_⟩
  intro es rootPath ext
  show (forestFiles rootPath ext es).map Prod.fst = _
  exact forestFiles_spec rootPath ext es

/-- C6: in production mode (dev flag false) the markup, plain-stylesheet and
plain-script outputs never exceed the source length: the minified output's
length is ≤ the source's length for every input (so in particular for every
input containing removable whitespace or comments).  Lengths are counted in
characters; every replacement the minifiers perform emits the one-byte
ASCII space, so the UTF-8 byte count obeys the same bound. -/
theorem C6_production_minify_no_growth : ∀ content : String,
    (htmlOut false content).length ≤ content.length ∧
    (cssOut false content).length ≤ content.length ∧
    (jsOut false content).length ≤ content.length := by
  intro content
  refine ⟨?_, ?_, ?_⟩
  · show (minifyHTML content).length ≤ content.length
    exact minifyHTMLList_len content.data
  · show (minifyCSS content).length ≤ content.length
    exact minifyCSSList_len content.data
  · show (minifyJS content).length ≤ content.length
    exact minifyJSList_len content.data

/-- C3 (counterexample): the stylesheet minifier is not idempotent as the
claim states for every input: on `"a;;}"` one pass gives `"a;}"` and a
second pass gives `"a}"` — the `;\s*}` rule fires again across passes, also
shrinking the byte length further. -/
theorem C3_counterexample :
    ¬ (minifyCSS (minifyCSS "a;;\x7d") = minifyCSS "a;;\x7d") := by
  decide

/-- C3 (amended): only the markup minifier is idempotent for every input
string; for the stylesheet and script minifiers re-running on their own
output can further alter — strictly shrink — the result and its byte
length, witnessed at `"a;;}"` (the `;\s*}` rule composes across passes) and
at `"//*x*/*y*/"` (block-comment removal splices a new block comment). -/
theorem C3_minifier_idempotence_amended :
    (∀ s : String, minifyHTML (minifyHTML s) = minifyHTML s) ∧
    (minifyCSS (minifyCSS "a;;\x7d") ≠ minifyCSS "a;;\x7d" ∧
      (minifyCSS (minifyCSS "a;;\x7d")).length < (minifyCSS "a;;\x7d").length) ∧
    (minifyJS (minifyJS "//*x*/*y*/") ≠ minifyJS "//*x*/*y*/" ∧
      (minifyJS (minifyJS "//*x*/*y*/")).length < (minifyJS "//*x*/*y*/").length) := by
  refine ⟨minifyHTML_idem, ⟨?_, ?_⟩, ⟨?_, ?_⟩⟩ <;> decide

theorem htmlWrites_append (dev : Bool) (a b : List (String × String)) :
    htmlWrites dev (a ++ b) = htmlWrites dev a ++ htmlWrites dev b := by
  unfold htmlWrites
  rw [List.flatMap_append]

theorem htmlWrites_cons (dev : Bool) (pc : String × String)
    (rest : List (String × String)) :
    htmlWrites dev (pc :: rest) =
      Act.read pc.1 ::
        Act.write (distDir ++ "/" ++ basename pc.1) (htmlOut dev pc.2) ::
          htmlWrites dev rest := rfl

theorem htmlWrites_write_mem {dev : Bool} {files : List (String × String)}
    {p c : String} (h : Act.write p c ∈ htmlWrites dev files) :
    ∃ pc ∈ files, p = distDir ++ "/" ++ basename pc.1 := by
  unfold htmlWrites at h
  rw [List.mem_flatMap] at h
  obtain ⟨pc, hpc, hin⟩ := h
  simp only [List.mem_cons, List.not_mem_nil, or_false] at hin
  rcases hin with h' | h'
  · cases h'
  · exact ⟨pc, hpc, by cases h'; rfl⟩

theorem applyActs_cons_read (fs : String → Option String) (p : String)
    (rest : List Act) : applyActs fs (Act.read p :: rest) = applyActs fs rest := rfl

theorem applyActs_cons_write (fs : String → Option String) (p c : String)
    (rest : List Act) :
    applyActs fs (Act.write p c :: rest) =
      applyActs (fun q => if q = p then some c else fs q) rest := rfl

theorem dist_path_inj {x y : String}
    (h : distDir ++ "/" ++ x = distDir ++ "/" ++ y) : x = y := by
  apply String.ext
  have hd := congrArg String.data h
  simp only [String.data_append, List.append_assoc] at hd
  exact List.append_cancel_left (List.append_cancel_left hd)

/-- C7: the markup task writes every discovered markup file flat into the
output root under its basename — the source subdirectory structure is not
preserved — so two markup files with the same basename map to the same
output path, and when exactly those two collide the later-enumerated one's
content is what the output file ends up holding (silent overwrite, one
output file for that basename). -/
theorem C7_markup_flattening (dev : Bool) (l1 l2 l3 : List (String × String))
    (p1 c1 p2 c2 : String) (hb : basename p1 = basename p2)
    (huniq : ∀ q ∈ l1 ++ l2 ++ l3, basename q.1 ≠ basename p1) :
    (∀ (files : List (String × String)), ∀ pc ∈ files,
      Act.write (distDir ++ "/" ++ basename pc.1) (htmlOut dev pc.2) ∈
        htmlWrites dev files) ∧
    distDir ++ "/" ++ basename p1 = distDir ++ "/" ++ basename p2 ∧
    ∀ fs, applyActs fs
        (htmlWrites dev (l1 ++ (p1, c1) :: (l2 ++ (p2, c2) :: l3)))
        (distDir ++ "/" ++ basename p1) = some (htmlOut dev c2) := by
  refine ⟨?_, by rw [hb], ?_⟩
  · intro files pc hpc
    unfold htmlWrites
    rw [List.mem_flatMap]
    exact ⟨pc, hpc, by simp⟩
  · intro fs
    rw [htmlWrites_append dev l1 ((p1, c1) :: (l2 ++ (p2, c2) :: l3)),
      htmlWrites_cons, htmlWrites_append dev l2 ((p2, c2) :: l3), htmlWrites_cons,
      applyActs_append, applyActs_cons_read, applyActs_cons_write,
      applyActs_append, applyActs_cons_read, applyActs_cons_write]
    have hmiss : ∀ p c, Act.write p c ∈ htmlWrites dev l3 →
        p ≠ distDir ++ "/" ++ basename p1 := by
      intro p c hmem heq
      obtain ⟨q, hq, rfl⟩ := htmlWrites_write_mem hmem
      exact huniq q (by simp [hq]) (dist_path_inj heq)
    rw [applyActs_miss _ _ hmiss]
    simp [hb]

theorem runTask_html (w : World) : runTask w "html" = (processHTML w, none) := rfl

theorem runTask_styles (w : World) : runTask w "styles" = processStyles w := rfl

theorem runTask_scripts (w : World) : runTask w "scripts" = processScripts w := rfl

theorem runTask_assets (w : World) : runTask w "assets" = (processAssets w, none) :=
  rfl

theorem runTask_data (w : World) : runTask w "data" = (processData w, none) := rfl

/-- The successful build loop, fully unrolled. -/
theorem buildLoop_all_ok (w : World)
    (hsty : (processStyles w).2 = none) (hscr : (processScripts w).2 = none) :
    buildLoop w taskNames =
      (Act.taskStart "html" :: (processHTML w ++ Act.taskDone "html" ::
        (Act.taskStart "styles" :: ((processStyles w).1 ++ Act.taskDone "styles" ::
          (Act.taskStart "scripts" :: ((processScripts w).1 ++ Act.taskDone "scripts" ::
            (Act.taskStart "assets" :: (processAssets w ++ Act.taskDone "assets" ::
              (Act.taskStart "data" :: (processData w ++ Act.taskDone "data" ::
                ([] : List Act)))))))))), none) := by
  simp [buildLoop, taskNames, runTask_html, runTask_styles, runTask_scripts,
    runTask_assets, runTask_data, hsty, hscr, runTask]

/-- The build loop when the script stage is the first to fail. -/
theorem buildLoop_scripts_fail (w : World) (m : String)
    (hsty : (processStyles w).2 = none) (hscr : (processScripts w).2 = some m) :
    buildLoop w taskNames =
      (Act.taskStart "html" :: (processHTML w ++ Act.taskDone "html" ::
        (Act.taskStart "styles" :: ((processStyles w).1 ++ Act.taskDone "styles" ::
          (Act.taskStart "scripts" :: (processScripts w).1)))), some m) := by
  simp [buildLoop, taskNames, runTask_html, runTask_styles, runTask_scripts,
    runTask_assets, runTask_data, hsty, hscr, runTask]

/-- C2: a full build that completes runs the five transformer tasks exactly
once each, in the fixed order markup (`html`), stylesheet (`styles`),
script (`scripts`), asset (`assets`), data (`data`): the subtrace of
orchestrator markers is exactly start/done of each task in that order, so
each task starts only after the previous one has completed. -/
theorem C2_fixed_task_order (w : World)
    (h : (buildLoop w taskNames).2 = none) :
    (build w).1.filter isMarker =
      [Act.taskStart "html", Act.taskDone "html",
       Act.taskStart "styles", Act.taskDone "styles",
       Act.taskStart "scripts", Act.taskDone "scripts",
       Act.taskStart "assets", Act.taskDone "assets",
       Act.taskStart "data", Act.taskDone "data"] ∧
    (build w).2 = 0 := by
  rcases hsty : (processStyles w).2 with _ | m
  · rcases hscr : (processScripts w).2 with _ | m
    · have hbl := buildLoop_all_ok w hsty hscr
      constructor
      · show (build w).1.filter isMarker = _
        unfold build
        rw [hbl]
        simp only [List.filter_append, List.filter_cons]
        rw [filter_marker_nil (processHTML_plain w),
          filter_marker_nil (processStyles_plain w),
          filter_marker_nil (processScripts_plain w),
          filter_marker_nil (processAssets_plain w),
          filter_marker_nil (processData_plain w)]
        rfl
      · unfold build
        rw [hbl]
    · exfalso
      rw [buildLoop_scripts_fail w m hsty hscr] at h
      cases h
  · exfalso
    have : (buildLoop w taskNames).2 = some m := by
      simp [buildLoop, taskNames, runTask_html, runTask_styles, hsty, runTask]
    rw [this] at h
    cases h

/-- C1: when some typed-script source fails to compile (the first such file
being `f` with compiler message `m`) in a build whose stylesheet stage
succeeded, the whole build aborts: the exit status is 1 (non-zero), the
triggering file path and the compiler message are surfaced verbatim in the
logs (both in the per-file error and in the final build error), and every
write of the whole trace belongs to the markup or stylesheet task — the
asset and data tasks and the remaining plain-script copies perform no
write. -/
theorem C1_ts_failure_aborts_build (w : World) (f m : String)
    (hfail : firstTsFail w = some (f, m))
    (hsty : (processStyles w).2 = none) :
    (build w).2 = 1 ∧
    Act.log ("❌ Error compilando TypeScript " ++ f ++ ": " ++ m) ∈ (build w).1 ∧
    Act.log ("❌ Error durante la construcción: " ++ m) ∈ (build w).1 ∧
    ∀ p c, Act.write p c ∈ (build w).1 →
      Act.write p c ∈ processHTML w ∨ Act.write p c ∈ (processStyles w).1 := by
  obtain ⟨hts2, htslog, htsw⟩ := tsLoop_fail w (getFiles w.srcTree srcDir ".ts") f m hfail
  have hscr : (processScripts w).2 = some m := by
    rw [processScripts_eq_err w m hts2]
  have hscr1 : (processScripts w).1 = (tsLoop w (getFiles w.srcTree srcDir ".ts")).1 := by
    rw [processScripts_eq_err w m hts2]
  have hbl := buildLoop_scripts_fail w m hsty hscr
  have hbuild : build w =
      ([Act.mkdir distDir, Act.mkdir (distDir ++ "/data"),
        Act.mkdir (distDir ++ "/assets")] ++
       (Act.taskStart "html" :: (processHTML w ++ Act.taskDone "html" ::
         (Act.taskStart "styles" :: ((processStyles w).1 ++ Act.taskDone "styles" ::
           (Act.taskStart "scripts" :: (processScripts w).1))))) ++
       [Act.log ("❌ Error durante la construcción: " ++ m)], 1) := by
    unfold build
    rw [hbl]
  refine ⟨by rw [hbuild], ?_, ?_, ?_⟩
  · rw [hbuild, hscr1]
    simp only [List.mem_append, List.mem_cons]
    tauto
  · rw [hbuild]
    simp
  · intro p c hmem
    rw [hbuild, hscr1] at hmem
    have hw := htsw p c
    simp only [List.mem_append, List.mem_cons, List.mem_singleton,
      List.not_mem_nil, or_false, reduceCtorEq, false_or, or_false] at hmem
    tauto

/-! ## Watch-mode support lemmas -/

theorem htmlWrites_mem {dev : Bool} {files : List (String × String)} {a : Act}
    (h : a ∈ htmlWrites dev files) :
    (∃ pc ∈ files, a = Act.read pc.1) ∨ ∃ p c, a = Act.write p c := by
  unfold htmlWrites at h
  rw [List.mem_flatMap] at h
  obtain ⟨pc, hpc, hin⟩ := h
  simp only [List.mem_cons, List.not_mem_nil, or_false] at hin
  rcases hin with rfl | rfl
  · exact Or.inl ⟨pc, hpc, rfl⟩
  · exact Or.inr ⟨_, _, rfl⟩

theorem cssActs_mem {w : World} {a : Act} (h : a ∈ cssActs w) :
    (∃ pc ∈ scanFiles w.srcTree srcDir ".css", a = Act.read pc.1) ∨
      ∃ p c, a = Act.write p c := by
  unfold cssActs at h
  rw [List.mem_flatMap] at h
  obtain ⟨pc, hpc, hin⟩ := h
  simp only [List.mem_cons, List.not_mem_nil, or_false] at hin
  rcases hin with rfl | rfl
  · exact Or.inl ⟨pc, hpc, rfl⟩
  · exact Or.inr ⟨_, _, rfl⟩

theorem jsActs_mem {w : World} {a : Act} (h : a ∈ jsActs w) :
    (∃ pc ∈ scanFiles w.srcTree srcDir ".js", a = Act.read pc.1) ∨
      ∃ p c, a = Act.write p c := by
  unfold jsActs at h
  rw [List.mem_flatMap] at h
  obtain ⟨pc, hpc, hin⟩ := h
  simp only [List.mem_cons, List.not_mem_nil, or_false] at hin
  rcases hin with rfl | rfl
  · exact Or.inl ⟨pc, hpc, rfl⟩
  · exact Or.inr ⟨_, _, rfl⟩

/-- Every `read`/`sassC`/`compileTs` act of a markup, stylesheet or script
task invocation targets a path produced by scanning the source root, hence
one whose path begins with `src/`. -/
theorem taskActsOf_reads_src (w : World) (k : Kind)
    (hk : k = Kind.markup ∨ k = Kind.stylesheet ∨ k = Kind.script) (q : String)
    (h : Act.read q ∈ (taskActsOf w k).1 ∨ Act.sassC q ∈ (taskActsOf w k).1 ∨
      Act.compileTs q ∈ (taskActsOf w k).1) :
    ∃ t, q.data = srcDir.data ++ '/' :: t := by
  rcases hk with rfl | rfl | rfl
  · rcases h with h | h | h
    · rcases htmlWrites_mem h with ⟨pc, hpc, heq⟩ | ⟨p, c, heq⟩
      · obtain rfl : q = pc.1 := by cases heq; rfl
        exact scanFiles_pfx w.srcTree srcDir ".html" pc hpc
      · cases heq
    · rcases htmlWrites_mem h with ⟨pc, _, heq⟩ | ⟨p, c, heq⟩ <;> cases heq
    · rcases htmlWrites_mem h with ⟨pc, _, heq⟩ | ⟨p, c, heq⟩ <;> cases heq
  · have hsplit : ∀ a, a ∈ (processStyles w).1 →
        a ∈ (scssLoop w (scanFiles w.srcTree srcDir ".scss")).1 ∨ a ∈ cssActs w := by
      intro a ha
      rcases hs : (scssLoop w (scanFiles w.srcTree srcDir ".scss")).2 with _ | m
      · rw [processStyles_eq_ok w hs] at ha
        exact List.mem_append.mp ha
      · rw [processStyles_eq_err w m hs] at ha
        exact Or.inl ha
    rcases h with h | h | h
    · rcases hsplit _ h with h' | h'
      · rcases scssLoop_acts w _ _ h' with ⟨pc, _, heq⟩ | ⟨p, c, heq⟩ <;> cases heq
      · rcases cssActs_mem h' with ⟨pc, hpc, heq⟩ | ⟨p, c, heq⟩
        · obtain rfl : q = pc.1 := by cases heq; rfl
          exact scanFiles_pfx w.srcTree srcDir ".css" pc hpc
        · cases heq
    · rcases hsplit _ h with h' | h'
      · rcases scssLoop_acts w _ _ h' with ⟨pc, hpc, heq⟩ | ⟨p, c, heq⟩
        · obtain rfl : q = pc.1 := by cases heq; rfl
          exact scanFiles_pfx w.srcTree srcDir ".scss" pc hpc
        · cases heq
      · rcases cssActs_mem h' with ⟨pc, _, heq⟩ | ⟨p, c, heq⟩ <;> cases heq
    · rcases hsplit _ h with h' | h'
      · rcases scssLoop_acts w _ _ h' with ⟨pc, _, heq⟩ | ⟨p, c, heq⟩ <;> cases heq
      · rcases cssActs_mem h' with ⟨pc, _, heq⟩ | ⟨p, c, heq⟩ <;> cases heq
  · have hsplit : ∀ a, a ∈ (processScripts w).1 →
        a ∈ (tsLoop w (getFiles w.srcTree srcDir ".ts")).1 ∨ a ∈ jsActs w := by
      intro a ha
      rcases hs : (tsLoop w (getFiles w.srcTree srcDir ".ts")).2 with _ | m
      · rw [processScripts_eq_ok w hs] at ha
        exact List.mem_append.mp ha
      · rw [processScripts_eq_err w m hs] at ha
        exact Or.inl ha
    rcases h with h | h | h
    · rcases hsplit _ h with h' | h'
      · rcases tsLoop_acts w _ _ h' with ⟨p, _, heq⟩ | ⟨m, heq⟩ <;> cases heq
      · rcases jsActs_mem h' with ⟨pc, hpc, heq⟩ | ⟨p, c, heq⟩
        · obtain rfl : q = pc.1 := by cases heq; rfl
          exact scanFiles_pfx w.srcTree srcDir ".js" pc hpc
        · cases heq
    · rcases hsplit _ h with h' | h'
      · rcases tsLoop_acts w _ _ h' with ⟨p, _, heq⟩ | ⟨m, heq⟩ <;> cases heq
      · rcases jsActs_mem h' with ⟨pc, _, heq⟩ | ⟨p, c, heq⟩ <;> cases heq
    · rcases hsplit _ h with h' | h'
      · rcases tsLoop_acts w _ _ h' with ⟨p', hp', heq⟩ | ⟨m, heq⟩
        · obtain rfl : q = p' := by cases heq; rfl
          unfold getFiles at hp'
          rw [List.mem_map] at hp'
          obtain ⟨pc, hpc, rfl⟩ := hp'
          exact scanFiles_pfx w.srcTree srcDir ".ts" pc hpc
        · cases heq
      · rcases jsActs_mem h' with ⟨pc, _, heq⟩ | ⟨p, c, heq⟩ <;> cases heq

theorem head_of_data_pfx {q : String} {pre t : List Char} (h : q.data = pre ++ t)
    {c : Char} (hc : pre.head? = some c) : q.data.head? = some c := by
  rw [h]
  cases pre with
  | nil => cases hc
  | cons a r =>
    simp only [List.head?_cons, Option.some.injEq] at hc
    simp [hc]

theorem endsW_trans_write {b q : String} (hq : q = distDir ++ "/" ++ b)
    {suf : String} (hh : endsW b suf = true) : endsW q suf = true := by
  obtain ⟨t, ht⟩ := (endsW_iff b suf).mp hh
  rw [endsW_iff]
  refine ⟨distDir.data ++ ("/" : String).data ++ t, ?_⟩
  rw [hq]
  simp [String.data_append, ht, List.append_assoc]

theorem not_both_suffix (s1 s2 : String) (c1 c2 : Char) {q : String}
    (h1 : endsW q s1 = true) (h2 : endsW q s2 = true)
    (hc1 : s1.data.getLast? = some c1) (hc2 : s2.data.getLast? = some c2)
    (hne : c1 ≠ c2) : False := by
  have e1 := endsW_lastChar h1 hc1
  have e2 := endsW_lastChar h2 hc2
  rw [e1] at e2
  exact hne (Option.some.inj e2)

theorem html_write_not_under (pre u : String) {b q : String}
    (hq : q = distDir ++ "/" ++ b)
    (hnos : ∀ ch ∈ b.data, ch ≠ '/')
    (hu : pre.data = distDir.data ++ (("/" : String).data ++ u.data))
    (hslash : '/' ∈ u.data)
    (hpf : startsW q pre = true) : False := by
  obtain ⟨t, ht⟩ := (startsW_iff q pre).mp hpf
  have hqd : q.data = distDir.data ++ (("/" : String).data ++ b.data) := by
    rw [hq]
    simp [String.data_append, List.append_assoc]
  rw [hu] at ht
  have hcomb : distDir.data ++ (("/" : String).data ++ b.data) =
      distDir.data ++ (("/" : String).data ++ (u.data ++ t)) := by
    rw [← hqd, ht]
    simp [List.append_assoc]
  have hb := List.append_cancel_left (List.append_cancel_left hcomb)
  exact hnos '/' (by rw [hb]; exact List.mem_append.mpr (Or.inl hslash)) rfl

/-- C9: in watch mode a change event for a `.html` path is routed to exactly
one transformer task, the markup task, and the handling of the event leaves
the outputs of the other four kinds untouched: any path below
`dist/assets/` or `dist/data/` or ending in `.css`, `.map` (stylesheet
source maps) or `.js` holds the same content after the handler's writes are
replayed. -/
theorem C9_markup_event_isolated (w : World) (p : String)
    (hext : extname p = ".html") :
    routeKind p = some Kind.markup ∧
    handleChange w p = Act.evChange p :: (processHTML w ++
      [Act.log (okMsg Kind.markup),
       Act.log "🔥 Recarga tu navegador para ver los cambios"]) ∧
    ∀ fs q,
      (startsW q (distDir ++ "/assets/") = true ∨
       startsW q (distDir ++ "/data/") = true ∨
       endsW q ".css" = true ∨ endsW q ".map" = true ∨ endsW q ".js" = true) →
      applyActs fs (handleChange w p) q = fs q := by
  have hroute : routeKind p = some Kind.markup := by
    simp [routeKind, hext]
  have hhandle : handleChange w p = Act.evChange p :: (processHTML w ++
      [Act.log (okMsg Kind.markup),
       Act.log "🔥 Recarga tu navegador para ver los cambios"]) := by
    unfold handleChange
    rw [hroute]
    rfl
  refine ⟨hroute, hhandle, ?_⟩
  intro fs q hq
  apply applyActs_miss
  intro pw cw hmem heq
  subst heq
  rw [hhandle] at hmem
  simp only [List.mem_cons, List.mem_append, List.mem_singleton,
    List.not_mem_nil, reduceCtorEq, false_or, or_false] at hmem
  obtain ⟨b, hb, hnos, hhtml⟩ := processHTML_write_shape w pw cw hmem
  have hqhtml : endsW pw ".html" = true := endsW_trans_write hb hhtml
  rcases hq with hq | hq | hq | hq | hq
  · exact html_write_not_under (distDir ++ "/assets/") "assets/" hb hnos
      (by decide) (by decide) hq
  · exact html_write_not_under (distDir ++ "/data/") "data/" hb hnos
      (by decide) (by decide) hq
  · exact not_both_suffix ".html" ".css" 'l' 's' hqhtml hq
      (by decide) (by decide) (by decide)
  · exact not_both_suffix ".html" ".map" 'l' 'p' hqhtml hq
      (by decide) (by decide) (by decide)
  · exact not_both_suffix ".html" ".js" 'l' 's' hqhtml hq
      (by decide) (by decide) (by decide)

/-- C10: the watch router checks extensions before locations, and the
extension-routed tasks re-scan only the fixed source root: a change event
for a path with one of the five handled extensions — even one lying under
the assets or data root — triggers the markup, stylesheet or script task,
whose reads and compiler invocations all target paths under `src/`; in
particular the changed file itself is never read or handed to a compiler by
the triggered task. -/
theorem C10_extension_routing_precedence (w : World) (p : String)
    (hext : extname p = ".html" ∨ extname p = ".scss" ∨ extname p = ".css" ∨
      extname p = ".ts" ∨ extname p = ".js")
    (hloc : startsW p (assetsDir ++ "/") = true ∨ startsW p (dataDir ++ "/") = true) :
    (∃ k, routeKind p = some k ∧
      (k = Kind.markup ∨ k = Kind.stylesheet ∨ k = Kind.script)) ∧
    ∀ q, (Act.read q ∈ handleChange w p ∨ Act.sassC q ∈ handleChange w p ∨
        Act.compileTs q ∈ handleChange w p) →
      (∃ t, q.data = srcDir.data ++ '/' :: t) ∧ q ≠ p := by
  have hkind : ∃ k, routeKind p = some k ∧
      (k = Kind.markup ∨ k = Kind.stylesheet ∨ k = Kind.script) := by
    rcases hext with h | h | h | h | h
    · exact ⟨Kind.markup, by simp [routeKind, h], Or.inl rfl⟩
    · exact ⟨Kind.stylesheet, by simp [routeKind, h], Or.inr (Or.inl rfl)⟩
    · exact ⟨Kind.stylesheet, by simp [routeKind, h], Or.inr (Or.inl rfl)⟩
    · exact ⟨Kind.script, by simp [routeKind, h], Or.inr (Or.inr rfl)⟩
    · exact ⟨Kind.script, by simp [routeKind, h], Or.inr (Or.inr rfl)⟩
  obtain ⟨k, hk, hk3⟩ := hkind
  refine ⟨⟨k, hk, hk3⟩, ?_⟩
  intro q hq
  have hqtask : Act.read q ∈ (taskActsOf w k).1 ∨ Act.sassC q ∈ (taskActsOf w k).1 ∨
      Act.compileTs q ∈ (taskActsOf w k).1 := by
    have hget : ∀ a : Act, a ∈ handleChange w p → a = Act.evChange p ∨
        a ∈ (taskActsOf w k).1 ∨ ∃ s, a = Act.log s := by
      intro a ha
      unfold handleChange at ha
      rcases ht : (taskActsOf w k).2 with _ | m <;>
        simp only [hk, ht, List.mem_cons, List.mem_append, List.mem_singleton,
          List.not_mem_nil, or_false] at ha
      · rcases ha with rfl | h' | h' | h'
        · exact Or.inl rfl
        · exact Or.inr (Or.inl h')
        · exact Or.inr (Or.inr ⟨_, h'⟩)
        · exact Or.inr (Or.inr ⟨_, h'⟩)
      · rcases ha with rfl | h' | h'
        · exact Or.inl rfl
        · exact Or.inr (Or.inl h')
        · exact Or.inr (Or.inr ⟨_, h'⟩)
    rcases hq with h | h | h
    · rcases hget _ h with h' | h' | ⟨s, h'⟩
      · cases h'
      · exact Or.inl h'
      · cases h'
    · rcases hget _ h with h' | h' | ⟨s, h'⟩
      · cases h'
      · exact Or.inr (Or.inl h')
      · cases h'
    · rcases hget _ h with h' | h' | ⟨s, h'⟩
      · cases h'
      · exact Or.inr (Or.inr h')
      · cases h'
  have hsrc := taskActsOf_reads_src w k hk3 q hqtask
  refine ⟨hsrc, ?_⟩
  intro heq
  subst heq
  obtain ⟨t, ht⟩ := hsrc
  have hq1 : q.data.head? = some 's' := head_of_data_pfx ht (by decide)
  rcases hloc with h | h
  · obtain ⟨t2, ht2⟩ := (startsW_iff q _).mp h
    have hq2 : q.data.head? = some 'a' := head_of_data_pfx ht2 (by decide)
    rw [hq1] at hq2
    cases hq2
  · obtain ⟨t2, ht2⟩ := (startsW_iff q _).mp h
    have hq2 : q.data.head? = some 'd' := head_of_data_pfx ht2 (by decide)
    rw [hq1] at hq2
    cases hq2

/-! ## C4: the watch loop survives per-event failures -/

/-- The change handler emits exactly one watch-event marker: its own. -/
theorem handleChange_filter_ev (w : World) (p : String) :
    (handleChange w p).filter isEvChange = [Act.evChange p] := by
  unfold handleChange
  rcases hk : routeKind p with _ | k
  · simp [isEvChange]
  · rcases ht : (taskActsOf w k).2 with _ | m <;>
      simp only [ht, List.filter_cons, List.filter_append,
        filter_evChange_nil (taskActsOf_plain w k)] <;>
      simp [isEvChange]

/-- The watch loop's subtrace of event markers is exactly the delivered
event sequence: no event's handling stops the loop from reaching the next
event. -/
theorem runWatch_filter_ev (w : World) (events : List String) :
    (runWatch w events).filter isEvChange = events.map Act.evChange := by
  induction events with
  | nil => rfl
  | cons e rest ih =>
    unfold runWatch
    rw [List.flatMap_cons, List.filter_append, handleChange_filter_ev]
    unfold runWatch at ih
    rw [ih, List.map_cons]
    rfl

/-- C4: in watch mode every failure of a watch-triggered task re-run is
caught and logged — the handler appends the `❌ Error procesando cambio`
log carrying the task's message, right after the change-event marker that
names the offending path — and never terminates the watch loop: the loop's
trace is the concatenation of one complete handler run per delivered event,
so the events after the failing one are still handled, and the subtrace of
watch-event markers is exactly the full event sequence; the loop ends only
when the (externally controlled) event stream does. -/
theorem C4_watch_loop_survives (w : World) (pre post : List String)
    (p : String) (k : Kind) (m : String)
    (hk : routeKind p = some k) (hm : (taskActsOf w k).2 = some m) :
    handleChange w p = Act.evChange p :: ((taskActsOf w k).1 ++
      [Act.log ("❌ Error procesando cambio: " ++ m)]) ∧
    runWatch w (pre ++ p :: post) =
      runWatch w pre ++ handleChange w p ++ runWatch w post ∧
    (runWatch w (pre ++ p :: post)).filter isEvChange =
      (pre ++ p :: post).map Act.evChange := by
  refine ⟨?_, ?_, runWatch_filter_ev w (pre ++ p :: post)⟩
  · unfold handleChange
    simp only [hk, hm]
  · unfold runWatch
    rw [List.flatMap_append, List.flatMap_cons, List.append_assoc]

/-! ## The watch-mode concurrency model

The `'change'` callback is an `async` function and `fs.watch` fires it once
per event with no debounce, queue or lock: each invocation's acts are fixed
by the world alone, and nothing in the code restricts how the acts of two
in-flight invocations interleave on the event loop, so every interleaving
of two invocation traces is admissible. -/

/-- Projection of a tagged schedule onto one invocation (`false` = the
first event's handler, `true` = the second's). -/
def projSched (b : Bool) (s : List (Act × Bool)) : List Act :=
  (s.filter (fun ab => ab.2 == b)).map Prod.fst

/-- `s` is an interleaving of the two invocation traces: each invocation's
acts occur in order, arbitrarily interleaved with the other's. -/
def isInterleaving (t1 t2 : List Act) (s : List (Act × Bool)) : Bool :=
  (projSched false s == t1) && (projSched true s == t2)

/-- A tag sequence is serialized when one invocation runs to completion
before the other starts. -/
def serializedTags (tags : List Bool) : Bool :=
  (tags == tags.filter (fun b => b == false) ++ tags.filter (fun b => b == true)) ||
  (tags == tags.filter (fun b => b == true) ++ tags.filter (fun b => b == false))

/-- The trace writes the path `p`. -/
def writesPath (p : String) (t : List Act) : Bool :=
  t.any (fun a => match a with
    | Act.write q _ => q == p
    | _ => false)

/-! ## Concrete worlds and states for witness evaluation -/

/-- A world with one markup source and succeeding external compilers. -/
def wC2 : World :=
  ⟨some (Forest.cons (Entry.file "index.html" "<p> hi </p>") Forest.nil),
   none, none, fun _ => Except.ok (), fun _ => Except.ok ("", none), false⟩

/-- A world whose single typed-script source fails to compile. -/
def wC1 : World :=
  ⟨some (Forest.cons (Entry.file "app.ts" "let x: number = 1") Forest.nil),
   none, none, fun _ => Except.error "TS2322", fun _ => Except.ok ("", none),
   false⟩

/-- A watch-mode world whose stylesheet compiler fails. -/
def wC4 : World :=
  ⟨some (Forest.cons (Entry.file "style.scss" "x") Forest.nil),
   none, none, fun _ => Except.ok (), fun _ => Except.error "boom", true⟩

/-- A watch-mode world with one markup source. -/
def wC5 : World :=
  ⟨some (Forest.cons (Entry.file "index.html" "hi") Forest.nil),
   none, none, fun _ => Except.ok (), fun _ => Except.ok ("", none), true⟩

/-- A watch-mode world with one markup source (for event isolation). -/
def wC9 : World :=
  ⟨some (Forest.cons (Entry.file "index.html" "hi") Forest.nil),
   none, none, fun _ => Except.ok (), fun _ => Except.ok ("", none), true⟩

/-- A watch-mode world with one plain stylesheet source. -/
def wC10 : World :=
  ⟨some (Forest.cons (Entry.file "style.css" "x") Forest.nil),
   none, none, fun _ => Except.ok (), fun _ => Except.ok ("", none), true⟩

/-- The empty file-system state. -/
def emptyFS : String → Option String := fun _ => none

/-- C5: the watch handler has no exclusion mechanism — `handleChange` takes
no lock, queue slot or in-flight state, so two rapid change events for the
same markup file spawn two invocations whose every interleaving is
admissible.  Both invocations write the same output path
`dist/index.html`, and there is an admissible schedule that is not
serialized — the second invocation runs entirely between the read and the
write of the first — so two concurrently running task invocations write
the identical output file: exactly the hazard the claimed single-slot
debounce or per-kind mutex was supposed to exclude. -/
theorem C5_watch_not_serialized :
    writesPath "dist/index.html" (handleChange wC5 "src/index.html") = true ∧
    ∃ sched : List (Act × Bool),
      isInterleaving (handleChange wC5 "src/index.html")
        (handleChange wC5 "src/index.html") sched = true ∧
      serializedTags (sched.map Prod.snd) = false := by
  refine ⟨by decide,
    ⟨((handleChange wC5 "src/index.html").take 2).map (fun a => (a, false)) ++
      ((handleChange wC5 "src/index.html").map (fun a => (a, true)) ++
        ((handleChange wC5 "src/index.html").drop 2).map (fun a => (a, false))),
      ?_, ?_⟩⟩ <;> decide

/-! ## Witnesses: the claim theorems applied at concrete worlds -/

theorem C1_witness :
    firstTsFail wC1 = some ("src/app.ts", "TS2322") ∧
    (processStyles wC1).2 = none ∧
    (build wC1).2 = 1 :=
  ⟨by decide, by decide,
    (C1_ts_failure_aborts_build wC1 "src/app.ts" "TS2322"
      (by decide) (by decide)).1⟩

theorem C2_witness :
    (buildLoop wC2 taskNames).2 = none ∧
    ((build wC2).1.filter isMarker =
      [Act.taskStart "html", Act.taskDone "html",
       Act.taskStart "styles", Act.taskDone "styles",
       Act.taskStart "scripts", Act.taskDone "scripts",
       Act.taskStart "assets", Act.taskDone "assets",
       Act.taskStart "data", Act.taskDone "data"] ∧
      (build wC2).2 = 0) :=
  ⟨by decide, C2_fixed_task_order wC2 (by decide)⟩

theorem C4_witness :
    routeKind "src/style.scss" = some Kind.stylesheet ∧
    (taskActsOf wC4 Kind.stylesheet).2 = some "boom" ∧
    handleChange wC4 "src/style.scss" =
      Act.evChange "src/style.scss" :: ((taskActsOf wC4 Kind.stylesheet).1 ++
        [Act.log ("❌ Error procesando cambio: " ++ "boom")]) :=
  ⟨by decide, by decide,
    (C4_watch_loop_survives wC4 [] [] "src/style.scss" Kind.stylesheet "boom"
      (by decide) (by decide)).1⟩

theorem C7_witness :
    basename "src/a/index.html" = basename "src/b/index.html" ∧
    applyActs emptyFS
      (htmlWrites false ([] ++ ("src/a/index.html", "x") ::
        ([] ++ ("src/b/index.html", "y") :: [])))
      (distDir ++ "/" ++ basename "src/a/index.html") = some (htmlOut false "y") :=
  ⟨by decide,
    (C7_markup_flattening false [] [] [] "src/a/index.html" "x"
      "src/b/index.html" "y" (by decide) (by simp)).2.2 emptyFS⟩

theorem C9_witness :
    extname "src/index.html" = ".html" ∧
    applyActs emptyFS (handleChange wC9 "src/index.html") "dist/assets/logo.svg" =
      emptyFS "dist/assets/logo.svg" :=
  ⟨by decide,
    (C9_markup_event_isolated wC9 "src/index.html" (by decide)).2.2 emptyFS
      "dist/assets/logo.svg" (Or.inl (by decide))⟩

theorem C10_witness :
    extname "assets/style.css" = ".css" ∧
    startsW "assets/style.css" (assetsDir ++ "/") = true ∧
    Act.read "src/style.css" ∈ handleChange wC10 "assets/style.css" ∧
    "src/style.css" ≠ "assets/style.css" :=
  ⟨by decide, by decide, by decide,
    ((C10_extension_routing_precedence wC10 "assets/style.css"
      (Or.inr (Or.inr (Or.inl (by decide)))) (Or.inl (by decide))).2
      "src/style.css" (Or.inl (by decide))).2⟩

end Bundler
